import Mathlib

/-! lftpq: listing entries, items and destination resolution.

A shallow embedding of `site/dir.go`, `site/item.go` and `main.go`, with the
queue operations that the sources only call or test (deduplication, script
rendering) written from the specification.

Conventions of the embedding
* Go strings are Lean `String`s; the string functions of the Go standard
  library are written over the character list `String.data`.
* `time.Time` is an integer count of nanoseconds since the Unix epoch and
  `time.Duration` an integer count of nanoseconds; `time.Now()` is an explicit
  argument `now`.
* Methods with a pointer receiver that assign to fields return the updated
  record.
* Go errors are the `error` side of `Except String`, carrying `err.Error()`.
-/

namespace Lftpq

/-! ## Standard library: `strings` -/

namespace strings

/-- Go `strings.HasPrefix(s, p)`. -/
def HasPrefix (s p : String) : Bool := p.data.isPrefixOf s.data

/-- Go `strings.HasSuffix(s, p)`. -/
def HasSuffix (s p : String) : Bool := p.data.isSuffixOf s.data

/-- Go `strings.Contains(s, substr)`: `substr` occurs somewhere in `s`. -/
def Contains (s substr : String) : Bool :=
  s.data.tails.any (fun t => substr.data.isPrefixOf t)

/-- Go `strings.TrimRight(s, cutset)`: `s` without its trailing characters
that belong to `cutset`. -/
def TrimRight (s cutset : String) : String :=
  ⟨s.data.rdropWhile (fun c => decide (c ∈ cutset.data))⟩

/-- The piece of `s` before the first `sep` and the rest after it, when `sep`
occurs in `s` (Go `strings.Index` followed by the two slices around it). -/
def cut (sep : Char) : List Char → Option (List Char × List Char)
  | [] => none
  | c :: cs =>
    if c = sep then some ([], cs)
    else match cut sep cs with
      | none => none
      | some (w, r) => some (c :: w, r)

/-- The loop of Go `strings.SplitN(s, sep, n)` for a one-character separator
and `n ≥ 0`: at most `n` pieces, the last one being the unsplit remainder. -/
def splitNChars (sep : Char) : Nat → List Char → List (List Char)
  | 0, _ => []
  | 1, s => [s]
  | n + 2, s =>
    match cut sep s with
    | none => [s]
    | some (w, r) => w :: splitNChars sep (n + 1) r

/-- Go `strings.SplitN(s, sep, n)` for a one-character separator. -/
def SplitN (s : String) (sep : Char) (n : Nat) : List String :=
  (splitNChars sep n s.data).map String.mk

/-- Go `a < b` on strings, over their characters: the lexicographic order. -/
def lessChars : List Char → List Char → Bool
  | _, [] => false
  | [], _ :: _ => true
  | a :: as, b :: bs => if a < b then true else if b < a then false else lessChars as bs

/-- Go `a < b` on strings. -/
def Less (a b : String) : Bool := lessChars a.data b.data

/-- Go `strings.Join(elems, sep)`. -/
def Join : List String → String → String
  | [], _ => ""
  | [a], _ => a
  | a :: b :: rest, sep => a ++ sep ++ Join (b :: rest) sep

end strings

/-! ## Standard library: `time` -/

/-- Go `time.Time`, in nanoseconds since the Unix epoch. -/
abbrev Time := Int

/-- Go `time.Duration`, in nanoseconds. -/
abbrev Duration := Int

/-- One second as a `Duration`. -/
def Second : Duration := 1000000000

namespace time

/-- The number written by a run of decimal digits. -/
def digitsVal (ds : List Char) : Nat :=
  ds.foldl (fun n c => 10 * n + (c.toNat - '0'.toNat)) 0

/-- Reads exactly `k` decimal digits from the front of `s`. -/
def number (k : Nat) (s : List Char) : Option (Nat × List Char) :=
  if k ≤ s.length ∧ (s.take k).all Char.isDigit = true then
    some (digitsVal (s.take k), s.drop k)
  else none

/-- Reads the literal character `c` from the front of `s`. -/
def lit (c : Char) : List Char → Option (List Char)
  | [] => none
  | d :: r => if d = c then some r else none

/-- Whether `y` is a leap year of the Gregorian calendar. -/
def isLeap (y : Nat) : Bool := y % 4 = 0 ∧ (y % 100 ≠ 0 ∨ y % 400 = 0)

/-- The number of days of month `m` (1 to 12) in year `y`. -/
def daysIn (m y : Nat) : Nat :=
  if m = 2 then (if isLeap y then 29 else 28)
  else if m = 4 ∨ m = 6 ∨ m = 9 ∨ m = 11 then 30 else 31

/-- Days from 1970-01-01 to the civil date `y`-`m`-`d` of the proleptic
Gregorian calendar. -/
def daysFromCivil (y m d : Int) : Int :=
  let y := if m ≤ 2 then y - 1 else y
  let era := y / 400
  let yoe := y - era * 400
  let doy := (153 * (if m > 2 then m - 3 else m + 9) + 2) / 5 + d - 1
  let doe := yoe * 365 + yoe / 4 - yoe / 100 + doy
  era * 146097 + doe - 719468

/-- The zone abbreviations accepted for the layout element `MST`: three
capital letters, or four or five capital letters ending in `T` that do not
start with `GMT` or `UTC`. -/
def zoneName (z : List Char) : Bool :=
  z.all (fun c => decide ('A' ≤ c ∧ c ≤ 'Z')) &&
    (z.length == 3 ||
      ((z.length == 4 || z.length == 5) && z.getLast? == some 'T' &&
        !(['G', 'M', 'T'].isPrefixOf z) && !(['U', 'T', 'C'].isPrefixOf z)))

/-- The fields of a value in the layout `2006-01-02 15:04:05 -0700 MST`. -/
structure Stamp where
  year : Nat
  month : Nat
  day : Nat
  hour : Nat
  min : Nat
  sec : Nat
  sign : Char
  zh : Nat
  zm : Nat
  zone : List Char

/-- Reads `k` digits and then the literal `c`. -/
def numberThen (k : Nat) (c : Char) (s : List Char) : Option (Nat × List Char) :=
  match number k s with
  | none => none
  | some (n, r) =>
    match lit c r with
    | none => none
    | some r => some (n, r)

/-- The date part `2006-01-02 ` of the layout. -/
def dateFields (v : List Char) : Option (Nat × Nat × Nat × List Char) :=
  match numberThen 4 '-' v with
  | none => none
  | some (year, v) =>
    match numberThen 2 '-' v with
    | none => none
    | some (month, v) =>
      match numberThen 2 ' ' v with
      | none => none
      | some (day, v) => some (year, month, day, v)

/-- The clock part `15:04:05 ` of the layout. -/
def clockFields (v : List Char) : Option (Nat × Nat × Nat × List Char) :=
  match numberThen 2 ':' v with
  | none => none
  | some (hour, v) =>
    match numberThen 2 ':' v with
    | none => none
    | some (min, v) =>
      match numberThen 2 ' ' v with
      | none => none
      | some (sec, v) => some (hour, min, sec, v)

/-- The offset part `-0700 ` of the layout. -/
def offsetFields : List Char → Option (Char × Nat × Nat × List Char)
  | [] => none
  | sign :: v =>
    match number 2 v with
    | none => none
    | some (zh, v) =>
      match numberThen 2 ' ' v with
      | none => none
      | some (zm, v) => some (sign, zh, zm, v)

/-- The fields of a value in the layout, read left to right; what follows the
offset is the zone abbreviation. -/
def fields (v : List Char) : Option Stamp :=
  match dateFields v with
  | none => none
  | some (year, month, day, v) =>
    match clockFields v with
    | none => none
    | some (hour, min, sec, v) =>
      match offsetFields v with
      | none => none
      | some (sign, zh, zm, zone) =>
        some { year, month, day, hour, min, sec, sign, zh, zm, zone }

/-- Go `time.Parse(layout, value)` restricted to the layout
`2006-01-02 15:04:05 -0700 MST` and to values with two-digit fields, no
fractional seconds and a plain zone abbreviation: every value accepted here is
accepted by the library with the same instant; other layouts and values are
reported as errors. With the abbreviation `UTC` the fields are read as UTC,
otherwise at the numeric offset. -/
def Parse (layout value : String) : Except String Time :=
  if layout ≠ "2006-01-02 15:04:05 -0700 MST" then .error "layout not covered"
  else
    match fields value.data with
    | none => .error ("parsing time " ++ value ++ ": cannot parse")
    | some f =>
      if f.month < 1 ∨ 12 < f.month then .error ("parsing time " ++ value ++ ": month out of range")
      else if f.day < 1 ∨ daysIn f.month f.year < f.day then
        .error ("parsing time " ++ value ++ ": day out of range")
      else if 24 ≤ f.hour then .error ("parsing time " ++ value ++ ": hour out of range")
      else if 60 ≤ f.min then .error ("parsing time " ++ value ++ ": minute out of range")
      else if 60 ≤ f.sec then .error ("parsing time " ++ value ++ ": second out of range")
      else if (f.sign ≠ '+' ∧ f.sign ≠ '-') ∨ 24 ≤ f.zh ∨ 60 ≤ f.zm ∨ zoneName f.zone = false then
        .error ("parsing time " ++ value ++ ": cannot parse zone")
      else
        let civil : Int :=
          daysFromCivil f.year f.month f.day * 86400 + f.hour * 3600 + f.min * 60 + f.sec
        let offset : Int :=
          if f.zone = ['U', 'T', 'C'] then 0
          else if f.sign = '-' then -((f.zh * 60 + f.zm) * 60 : Nat)
          else ((f.zh * 60 + f.zm) * 60 : Nat)
        .ok ((civil - offset) * 1000000000)

end time

/-! ## `site/dir.go` -/

/-- The struct `Dir` of `site/dir.go`. The field `Path` is the one that
`site/item.go` reads from its embedded directory entry (`i.Dir.Path`), whose
type is declared in the package `lftp`; that entry is read through `Path`,
`Base` and `lftp.Dir.Match` only. -/
structure Dir where
  Created : Time := 0
  Name : String := ""
  IsSymlink : Bool := false
  Path : String := ""
  deriving DecidableEq, Repr

/-- `func (d *Dir) CreatedAfter(age time.Duration) bool`, with `time.Now()`
passed as `now`: `d.Created.After(now.Add(-age))`. -/
def Dir.CreatedAfter (now : Time) (d : Dir) (age : Duration) : Bool :=
  decide (d.Created > now + (-age))

/-- `func (d *Dir) Match(s string) bool`. -/
def Dir.Match (d : Dir) (s : String) : Bool := strings.HasPrefix d.Name s

/-- `func (d *Dir) MatchAny(ss []string) bool`. -/
def Dir.MatchAny (d : Dir) : List String → Bool
  | [] => false
  | s :: ss => if d.Match s then true else d.MatchAny ss

/-- The layout string that `ParseDir` passes to `time.Parse`. -/
def timeLayout : String := "2006-01-02 15:04:05 -0700 MST"

/-- `func ParseDir(s string) (Dir, error)`. The library call `time.Parse` is
the argument `parse` (layout first, value second). -/
def ParseDir (parse : String → String → Except String Time) (s : String) :
    Except String Dir :=
  let words := strings.SplitN s ' ' 5
  if words.length ≠ 5 then
    .error ("expected 5 words, found " ++ toString words.length)
  else
    let t := strings.Join (words.take 4) " "
    match parse timeLayout t with
    | .error err => .error err
    | .ok created =>
      let name := words.getD 4 ""
      let isSymlink := strings.HasSuffix name "@"
      let name := strings.TrimRight name "@/"
      .ok { Name := name, Created := created, IsSymlink := isSymlink }

/-! ## Standard library: `path/filepath` (Unix) -/

namespace filepath

/-- The pieces of a path between its separators (`"a//b"` has the pieces
`a`, the empty piece and `b`). -/
def pieces : List Char → List (List Char)
  | [] => [[]]
  | c :: cs =>
    if c = '/' then [] :: pieces cs
    else match pieces cs with
      | [] => [[c]]
      | w :: ws => (c :: w) :: ws

/-- One step of `Clean` over the path elements kept so far (`kept`, the most
recent first): empty and `.` elements are dropped, `..` removes the element
before it, is dropped at the root, and is kept at the start of a relative
path. -/
def cleanStep (rooted : Bool) (kept : List (List Char)) (e : List Char) :
    List (List Char) :=
  if e = [] ∨ e = ['.'] then kept
  else if e = ['.', '.'] then
    match kept with
    | [] => if rooted then [] else [e]
    | top :: rest => if top = ['.', '.'] then e :: kept else rest
  else e :: kept

/-- Go `filepath.Clean(path)`: the shortest equivalent path. -/
def cleanChars (path : List Char) : List Char :=
  let rooted := path.head? = some '/'
  let kept := ((pieces path).foldl (cleanStep rooted) []).reverse
  let body := ['/'].intercalate kept
  if rooted then '/' :: body
  else if body = [] then ['.'] else body

/-- Go `filepath.Clean(path)`. -/
def Clean (path : String) : String := ⟨cleanChars path.data⟩

/-- Go `filepath.Join(elem...)`: the elements from the first non-empty one
on, joined by the separator and cleaned; the empty string when every element
is empty. -/
def Join (elem : List String) : String :=
  match elem.dropWhile (fun e => e = "") with
  | [] => ""
  | rest => Clean (strings.Join rest "/")

/-- Go `filepath.Base(path)`: the last element of the path, trailing
separators removed first; `.` for the empty path and `/` for a path of
separators only. -/
def Base (path : String) : String :=
  if path = "" then "."
  else
    let stripped := path.data.rdropWhile (fun c => c = '/')
    let last := stripped.rtakeWhile (fun c => c ≠ '/')
    if last = [] then "/" else ⟨last⟩

end filepath

/-! ## `site/item.go` -/

/-- Modelled from the spec: the method `Base` of the embedded directory entry,
whose declaration is in the `lftp` package; it returns the base name of the
entry path. -/
def Dir.Base (d : Dir) : String := filepath.Base d.Path

/-- The struct `parser.Media`, with the fields the templates and tests read. -/
structure Media where
  Release : String := ""
  Name : String := ""
  Year : Int := 0
  Season : Int := 0
  Episode : Int := 0
  deriving DecidableEq, Repr

/-- The fields of the owning queue (and its site) that `site/item.go` reads:
`priorities`, `parser` and `localDir`. A compiled template is its `Execute`
function; `none` is the nil template. -/
structure Queue where
  priorities : List String := []
  parser : String → Except String Media := fun _ => .ok {}
  localDir : Option (Media → Except String String) := none

/-- The struct `Item`. The field `Merged` is the one of the specification's
data model that deduplication sets; `site/item.go` does not assign it. -/
structure Item where
  Dir : Dir := {}
  LocalDir : String := ""
  Transfer : Bool := false
  Reason : String := ""
  Media : Media := {}
  Queue : Queue := {}
  Merged : Bool := false

/-- `os.PathSeparator` on Unix. -/
def PathSeparator : Char := '/'

/-- `func (i *Item) DstDir() string`. -/
def Item.DstDir (i : Item) : String :=
  if strings.HasSuffix i.LocalDir (String.singleton PathSeparator) then
    filepath.Join [i.LocalDir, i.Dir.Base]
  else
    i.LocalDir

/-- Modelled from the spec: the method `Match` of the directory entry that
`Item` embeds, which is declared in the package `lftp` and is not the `Match`
of `site/dir.go`. A priority pattern matches when its text occurs anywhere in
the entry name, not only at its start; the entry name is the base name of the
entry path. -/
def lftp.Dir.Match (d : Dir) (p : String) : Bool := strings.Contains d.Base p

/-- The loop of `Weight` from index `k` on, over the remaining patterns `ps`;
`n` is `len(i.Queue.priorities)`. -/
def Item.weightLoop (i : Item) (n : Nat) : Nat → List String → Int
  | _, [] => 0
  | k, p :: ps =>
    if lftp.Dir.Match i.Dir p then (n : Int) - (k : Int) else i.weightLoop n (k + 1) ps

/-- `func (i *Item) Weight() int`. -/
def Item.Weight (i : Item) : Int :=
  i.weightLoop i.Queue.priorities.length 0 i.Queue.priorities

/-- `func (i *Item) Accept(reason string)`. -/
def Item.Accept (i : Item) (reason : String) : Item :=
  { i with Transfer := true, Reason := reason }

/-- `func (i *Item) Reject(reason string)`. -/
def Item.Reject (i : Item) (reason : String) : Item :=
  { i with Transfer := false, Reason := reason }

/-- `func (i *Item) parseLocalDir() (string, error)`. -/
def Item.parseLocalDir (i : Item) : Except String String :=
  match i.Queue.localDir with
  | none => .error "template is not set"
  | some execute => execute i.Media

/-- `func (i *Item) setMetadata()`. -/
def Item.setMetadata (i : Item) : Item :=
  match i.Queue.parser i.Dir.Base with
  | .error err => i.Reject err
  | .ok m =>
    let i := { i with Media := m }
    match i.parseLocalDir with
    | .error err => i.Reject err
    | .ok d => { i with LocalDir := d }

/-- `func newItem(q *Queue, d lftp.Dir) Item`. -/
def newItem (q : Queue) (d : Dir) : Item :=
  let item : Item := { Queue := q, Dir := d, Reason := "no match" }
  item.setMetadata

/-! ## Standard library: `sort` -/

namespace sort

/-- Go `sort.Interface` over a collection of type `σ`: `Len`, `Less` and
`Swap`, the last returning the collection after the exchange. -/
structure Interface (σ : Type) where
  Len : σ → Nat
  Less : σ → Nat → Nat → Bool
  Swap : σ → Nat → Nat → σ

/-- The inner loop of the library's insertion sort, started at `j`:
`for ; j > 0 && data.Less(j, j-1); j-- { data.Swap(j, j-1) }`. -/
def sink {σ : Type} (I : Interface σ) (data : σ) : Nat → σ
  | 0 => data
  | j + 1 => if I.Less data (j + 1) j then sink I (I.Swap data (j + 1) j) j else data

/-- The outer loop of the library's insertion sort from index `i` on, with
`k` elements left to insert. -/
def insertFrom {σ : Type} (I : Interface σ) (data : σ) (i : Nat) : Nat → σ
  | 0 => data
  | k + 1 => insertFrom I (sink I data i) (i + 1) k

/-- Go `sort.Sort(data)` (`Sort` is reserved in Lean), as the insertion sort
that the library runs on collections of up to twelve elements:
`for i := 1; i < n; i++ { for j := i; j > 0 && Less(j, j-1); j-- { Swap(j, j-1) } }`. -/
def sortData {σ : Type} (I : Interface σ) (data : σ) : σ :=
  insertFrom I data 1 (I.Len data - 1)

end sort

/-! ## `site/item.go`: the ordering of `Items` -/

/-- `func (s Items) Len() int`. -/
def Items.Len (s : List Item) : Nat := s.length

/-- `func (s Items) Less(i, j int) bool`. -/
def Items.Less (s : List Item) (i j : Nat) : Bool :=
  strings.Less (s.getD i {}).Dir.Path (s.getD j {}).Dir.Path

/-- `func (s Items) Swap(i, j int)`. -/
def Items.Swap (s : List Item) (i j : Nat) : List Item :=
  (s.set i (s.getD j {})).set j (s.getD i {})

/-- The type `Items` as a `sort.Interface`. -/
def Items.Interface : sort.Interface (List Item) :=
  { Len := Items.Len, Less := Items.Less, Swap := Items.Swap }

/-- The item `x` does not come before the item `y` in the order of
`Items.Less`. -/
def Item.notLess (x y : Item) : Prop := strings.Less x.Dir.Path y.Dir.Path = false

instance Item.decidableNotLess : DecidableRel Item.notLess :=
  fun x y => decEq (strings.Less x.Dir.Path y.Dir.Path) false

/-! ## The media parser and the template of the tests -/

namespace parser

/-- Modelled from the spec: the season and episode marker that the absent
show parser looks for, read as `.SxxEyy` (two digits each) at the front of
`l`. -/
def episodeTag (l : List Char) : Option (Nat × Nat) :=
  match time.lit '.' l with
  | none => none
  | some l =>
    match time.lit 'S' l with
    | none => none
    | some l =>
      match time.numberThen 2 'E' l with
      | none => none
      | some (season, l) =>
        match time.number 2 l with
        | none => none
        | some (episode, _) => some (season, episode)

/-- Modelled from the spec: the fields that the absent show parser extracts,
namely the text before the first season and episode marker of a name and the
two numbers of the marker. -/
def showFields : List Char → Option (List Char × Nat × Nat)
  | [] => none
  | c :: cs =>
    match episodeTag (c :: cs) with
    | some (season, episode) => some ([], season, episode)
    | none =>
      match showFields cs with
      | none => none
      | some (name, season, episode) => some (c :: name, season, episode)

/-- Modelled from the spec: the show variant of the media name parser, which
is declared in the package `parser`. It extracts the series name, the season
and the episode from a raw entry name and keeps the raw name as the release;
it fails on a name without a season and episode marker. The marker is read
as `.SxxEyy`, as in the names of the tests. -/
def Show (name : String) : Except String Media :=
  match showFields name.data with
  | none => .error ("failed to parse " ++ name)
  | some (n, season, episode) =>
    .ok { Release := name, Name := ⟨n⟩, Season := season, Episode := episode }

end parser

/-- Go `fmt.Sprintf("%02d", n)`: the decimal digits of `n`, with a leading
zero when `n` is a single digit. -/
def Sprintf02d (n : Int) : String :=
  if 0 ≤ n ∧ n < 10 then "0" ++ toString n else toString n

/-- The template `/tmp/{{ .Name }}/S{{ .Season | Sprintf "%02d" }}/` of
`TestNewItemShow`, as its `Execute` function. -/
def showTemplate (m : Media) : Except String String :=
  .ok ("/tmp/" ++ m.Name ++ "/S" ++ Sprintf02d m.Season ++ "/")

/-! ## Deduplication and script rendering, from the specification -/

/-- Modelled from the spec: the variants of the media name parser that a site
selects, a choice made in the site configuration outside the sources. -/
inductive Variant where
  | show
  | movie
  | default
  deriving DecidableEq, Repr

/-- Modelled from the spec: the media identity used to group duplicates, which
the queue code outside the sources computes. The show variant groups by name,
season and episode, the movie variant by name and year, and the default
variant is never grouped. -/
def mediaIdentity (v : Variant) (m : Media) : Option (String × List Int) :=
  match v with
  | .show => some (m.Name, [m.Season, m.Episode])
  | .movie => some (m.Name, [m.Year])
  | .default => none

/-- Modelled from the spec: the choice, made inside the absent `deduplicate`,
of the member of a group that is kept: the one with the highest weight, the
first in the original order among members of equal weight. Members carry their
position in the queue. -/
def keptMember : List (Nat × Item) → Option (Nat × Item)
  | [] => none
  | x :: rest =>
    match keptMember rest with
    | none => some x
    | some y => if y.2.Weight > x.2.Weight then some y else some x

/-- Modelled from the spec: the grouping made inside the absent
`deduplicate`. The group of the media identity `key` is the items with
`Transfer` true and that identity, with their positions. -/
def groupOf (v : Variant) (items : List Item) (key : String × List Int) : List (Nat × Item) :=
  items.enum.filter (fun x => x.2.Transfer && mediaIdentity v x.2.Media == some key)

/-- Modelled from the spec: what the absent `deduplicate` does to the item
`x.2` at position `x.1` of the queue `items`. An item with `Transfer` true and
a media identity is left unchanged when it is the kept member of its group,
and is otherwise rewritten with `Transfer` false, `Merged` true, a reason that
refers to the kept item, and the local directory and entry of the kept item;
every other item is left unchanged. -/
def dedupItem (v : Variant) (items : List Item) (x : Nat × Item) : Item :=
  if x.2.Transfer then
    match mediaIdentity v x.2.Media with
    | none => x.2
    | some key =>
      match keptMember (groupOf v items key) with
      | none => x.2
      | some kept =>
        if kept.1 = x.1 then x.2
        else
          { x.2 with
            Transfer := false, Merged := true,
            Reason := "DuplicateOf=" ++ kept.2.Dir.Path,
            LocalDir := kept.2.LocalDir, Dir := kept.2.Dir }
  else x.2

/-- Modelled from the spec: the method `deduplicate` of the queue, which is
not among the sources. It acts only when deduplication is enabled and only on
items with `Transfer` true: the items are grouped by media identity, the
member of highest weight (the first among ties) is kept unchanged, and every
other member is rewritten. -/
def deduplicate (v : Variant) (enabled : Bool) (items : List Item) : List Item :=
  if enabled then items.enum.map (dedupItem v items) else items

/-- Modelled from the spec: the method `Transferable` of the queue, which is
not among the sources: the items with `Transfer` true, in the stored order. -/
def Transferable (items : List Item) : List Item := items.filter (fun i => i.Transfer)

/-- The given lines, each terminated by a newline. -/
def unlines : List String → String
  | [] => ""
  | l :: ls => l ++ "\n" ++ unlines ls

/-- Modelled from the spec: the method `Script` of the queue, which is not
among the sources. The script is the line `open <site>`, one line
`queue <getCmd> <remotePath> <destination>` per transferable item in the queue
order, and the lines `queue start`, `wait`, `exit`. -/
def Script (siteName getCmd : String) (items : List Item) : String :=
  unlines
    (["open " ++ siteName] ++
      (Transferable items).map
        (fun i => "queue " ++ getCmd ++ " " ++ i.Dir.Path ++ " " ++ i.DstDir) ++
      ["queue start", "wait", "exit"])

/-! ## `main.go` -/

/-- The operations that `main.go` calls and that are declared in the packages
`site`, `cmd`, `log` and `fmt`, over a world `σ`, sites `S`, directories `D`
and commands `C`. `GetDirs`, `Printf`, `Println`, `Fatal` and `RunCmd` (the
method `Run` of a command) act on the world; `FilterDirs`, `QueueCmd` and
`Join` compute values. -/
structure Env (σ S D C : Type) where
  GetDirs : S → σ → Except String (List D) × σ
  FilterDirs : S → List D → List D
  QueueCmd : S → D → Except String C
  Printf : D → String → σ → σ
  Join : List C → Except String C
  Println : C → σ → σ
  RunCmd : C → σ → Except String Unit × σ
  Fatal : String → σ → σ

/-- The loop `for _, d := range filtered` of `CLI.Run`: `cmds` are the
commands appended so far. -/
def CLI.collect {σ S D C : Type} (env : Env σ S D C) (s : S) :
    List D → List C → σ → List C × σ
  | [], cmds, w => (cmds, w)
  | d :: ds, cmds, w =>
    match env.QueueCmd s d with
    | .error err => CLI.collect env s ds cmds (env.Printf d err w)
    | .ok cmd => CLI.collect env s ds (cmds ++ [cmd]) w

/-- `func (c *CLI) Run(s site.Site) error`, with `c.Dryrun` as `dryrun`; the
result is the returned error, if any, and the world afterwards. -/
def CLI.Run {σ S D C : Type} (env : Env σ S D C) (dryrun : Bool) (s : S) (w : σ) :
    Except String Unit × σ :=
  match env.GetDirs s w with
  | (.error err, w) => (.error err, w)
  | (.ok dirs, w) =>
    let filtered := env.FilterDirs s dirs
    match CLI.collect env s filtered [] w with
    | (cmds, w) =>
      match env.Join cmds with
      | .error err => (.error err, w)
      | .ok queueCmd =>
        if dryrun then (.ok (), env.Println queueCmd w)
        else
          match env.RunCmd queueCmd w with
          | (.error err, w) => (.error err, w)
          | (.ok _, w) => (.ok (), w)

/-- The loop `for _, s := range cfg.Sites` of `func main`: `log.Fatal` ends
the program at the first error. -/
def mainSites {σ S D C : Type} (env : Env σ S D C) (dryrun : Bool) :
    List S → σ → Except String Unit × σ
  | [], w => (.ok (), w)
  | s :: rest, w =>
    match CLI.Run env dryrun s w with
    | (.error err, w) => (.error err, env.Fatal err w)
    | (.ok _, w) => mainSites env dryrun rest w

/-! ## Notions of the specification and inputs of the concrete evaluations -/

/-- The whitespace-separated tokens of a line, as the specification counts
them: the maximal runs of characters that are not white space. -/
def whitespaceTokens (s : String) : List String :=
  ((s.data.splitOnP Char.isWhitespace).filter (fun w => w ≠ [])).map String.mk

/-- A listing line whose name contains a space. -/
def lineWithSpace : String := "2014-06-25 07:12:13 +0200 CEST my dir/"

/-- A listing line of four tokens: a timestamp followed by one space. -/
def lineTrailingSpace : String := "2014-06-25 07:12:13 +0200 CEST "

/-- A listing line whose name token ends in `@/`. -/
def lineAtSlash : String := "2014-06-25 07:12:13 +0200 CEST foo@/"

/-- An item whose name `abx` is matched by the second and by the third of the
priority patterns `c`, `a`, `ab`. -/
def weightSample : Item :=
  { Dir := { Name := "abx", Path := "/tmp/abx" },
    Queue := { priorities := ["c", "a", "ab"] } }

/-- The second item of `TestWeight`, with the priority patterns as the spec
writes them. -/
def properItem : Item :=
  { Dir := { Name := "The.Wire.S01E01.PROPER.foo", Path := "/tmp/The.Wire.S01E01.PROPER.foo" },
    Queue := { priorities := [".PROPER.", ".REPACK."] } }

/-- The third item of `TestWeight`, with the same patterns. -/
def repackItem : Item :=
  { Dir := { Name := "The.Wire.S01E01.REPACK.foo", Path := "/tmp/The.Wire.S01E01.REPACK.foo" },
    Queue := { priorities := [".PROPER.", ".REPACK."] } }

/-- The first item of `TestWeight`, with the same patterns. -/
def plainItem : Item :=
  { Dir := { Name := "The.Wire.S01E01.foo", Path := "/tmp/The.Wire.S01E01.foo" },
    Queue := { priorities := [".PROPER.", ".REPACK."] } }

/-- The items of `TestItemsSort`. -/
def sortSample : List Item :=
  ["/x/c", "/x/b", "/x/a", "/y/a"].map (fun p => { Dir := { Path := p } })

/-- The queue of `TestNewItemShow`. -/
def showQueue : Queue := { parser := parser.Show, localDir := some showTemplate }

/-- The item of `TestNewItemShow` before its metadata is set, already
accepted. -/
def wireItem : Item :=
  { Dir := { Name := "The.Wire.S03E01", Path := "/foo/The.Wire.S03E01" },
    Transfer := true, Reason := "Match=The", Queue := showQueue }

/-- Three items of one queue with the priority patterns `c`, `a`, `ab`: the
first name contains `c`, the second `a` but not `c`, the third none of
them. -/
def orderSample : Item × Item × Item :=
  ({ Dir := { Name := "cx", Path := "/tmp/cx" }, Queue := { priorities := ["c", "a", "ab"] } },
   { Dir := { Name := "abx", Path := "/tmp/abx" }, Queue := { priorities := ["c", "a", "ab"] } },
   { Dir := { Name := "xyz", Path := "/tmp/xyz" }, Queue := { priorities := ["c", "a", "ab"] } })

/-- The queue of `TestDeduplicate`, with the priority patterns as plain
text. -/
def dedupQueue : Queue :=
  { priorities := [".PROPER.REPACK.", ".PROPER.", ".REPACK."], parser := parser.Show }

/-- An entry with the given path in `/tmp`, named by its base name. -/
def tmpDir (name : String) : Dir := { Name := name, Path := "/tmp/" ++ name }

/-- The seven items of `TestDeduplicate`: all but the last are accepted with
the empty reason. -/
def dedupSample : List Item :=
  [(newItem dedupQueue (tmpDir "The.Wire.S01E01.foo")).Accept "",
   (newItem dedupQueue (tmpDir "The.Wire.S01E01.PROPER.foo")).Accept "",
   (newItem dedupQueue (tmpDir "The.Wire.S01E01.REPACK.foo")).Accept "",
   (newItem dedupQueue (tmpDir "The.Wire.S01E02.bar")).Accept "",
   (newItem dedupQueue (tmpDir "The.Wire.S01E02.PROPER.REPACK")).Accept "",
   (newItem dedupQueue (tmpDir "The.Wire.S01E03.bar")).Accept "",
   newItem dedupQueue (tmpDir "The.Wire.S01E03.PROPER.REPACK")]

/-- The two items of `TestScript` and a third item that is not accepted. -/
def scriptSample : List Item :=
  [{ Dir := { Path := "/foo" }, LocalDir := "/tmp", Transfer := true },
   { Dir := { Path := "/baz" }, LocalDir := "/tmp", Transfer := false },
   { Dir := { Path := "/bar" }, LocalDir := "/tmp", Transfer := true }]

/-- An environment over a world that records what happens: the listing of
site `b` fails, directories named `x` give no command, commands are their
directory names, `Join` concatenates and the joined command `fail` does not
run. -/
def traceEnv : Env (List String) String String String :=
  { GetDirs := fun s w =>
      (if s = "b" then .error "listing failed" else .ok [s ++ "1", "x", s ++ "2"],
        w ++ ["list " ++ s]),
    FilterDirs := fun _ ds => ds,
    QueueCmd := fun _ d => if d = "x" then .error "no command" else .ok d,
    Printf := fun d err w => w ++ ["skip " ++ d ++ ": " ++ err],
    Join := fun cs => if cs = [] then .error "nothing to join" else .ok (strings.Join cs "+"),
    Println := fun c w => w ++ ["print " ++ c],
    RunCmd := fun c w =>
      (if c = "fail" then .error "exit status 1" else .ok (), w ++ ["run " ++ c]),
    Fatal := fun err w => w ++ ["fatal " ++ err] }

/-- A queue whose parser fails on the name `bar` and whose template renders
every media record to `/tmp/`. -/
def sampleQueue : Queue :=
  { priorities := [],
    parser := fun n => if n = "bar" then .error "cannot parse bar" else .ok { Release := n },
    localDir := some (fun _ => .ok "/tmp/") }

/-! ## Weight -/

theorem weightLoop_first (i : Item) (n : Nat) :
    ∀ (ps : List String) (k0 k : Nat) (p : String), ps[k]? = some p →
      lftp.Dir.Match i.Dir p = true → (∀ q ∈ ps.take k, lftp.Dir.Match i.Dir q = false) →
      i.weightLoop n k0 ps = (n : Int) - ((k0 + k : Nat) : Int) := by
  intro ps
  induction ps with
  | nil => intro k0 k p h; simp at h
  | cons a as ih =>
    intro k0 k p h hm hnone
    cases k with
    | zero =>
      simp only [List.getElem?_cons_zero, Option.some.injEq] at h
      subst h
      simp [Item.weightLoop, hm]
    | succ k =>
      have ha : lftp.Dir.Match i.Dir a = false := hnone a (by simp)
      have hrest : ∀ q ∈ as.take k, lftp.Dir.Match i.Dir q = false := by
        intro q hq
        exact hnone q (by simp [List.take_succ_cons, hq])
      have h2 : as[k]? = some p := by simpa using h
      have := ih (k0 + 1) k p h2 hm hrest
      simp only [Item.weightLoop, ha, Bool.false_eq_true, if_false, this]
      congr 2
      omega

theorem weightLoop_none (i : Item) (n : Nat) :
    ∀ (ps : List String) (k0 : Nat), (∀ q ∈ ps, lftp.Dir.Match i.Dir q = false) →
      i.weightLoop n k0 ps = 0 := by
  intro ps
  induction ps with
  | nil => intro k0 _; rfl
  | cons a as ih =>
    intro k0 h
    have ha : lftp.Dir.Match i.Dir a = false := h a (by simp)
    simp only [Item.weightLoop, ha, Bool.false_eq_true, if_false]
    exact ih (k0 + 1) (fun q hq => h q (by simp [hq]))

/-- C1: `Weight` is the number of priority patterns minus the zero-based index
of the first pattern, in list order, that matches the entry name (whatever the
later patterns do), and it is 0 when no pattern matches. -/
theorem Weight_first_match (i : Item) :
    (∀ (k : Nat) (p : String), i.Queue.priorities[k]? = some p →
        lftp.Dir.Match i.Dir p = true →
        (∀ q ∈ i.Queue.priorities.take k, lftp.Dir.Match i.Dir q = false) →
        i.Weight = (i.Queue.priorities.length : Int) - (k : Int)) ∧
    ((∀ q ∈ i.Queue.priorities, lftp.Dir.Match i.Dir q = false) → i.Weight = 0) := by
  refine ⟨?_, ?_⟩
  · intro k p h hm hnone
    have := weightLoop_first i i.Queue.priorities.length i.Queue.priorities 0 k p h hm hnone
    simpa [Item.Weight] using this
  · intro h
    exact weightLoop_none i _ _ 0 h

/-- C1, at an item whose name `abx` is matched by the second pattern `a` and
by the third pattern `ab` of `[c, a, ab]`: the weight is 3 - 1, and an item
matching none of the patterns weighs 0. -/
theorem Weight_first_match_witness :
    lftp.Dir.Match weightSample.Dir "a" = true ∧ lftp.Dir.Match weightSample.Dir "ab" = true ∧
      weightSample.Weight = 3 - 1 ∧
      ({ weightSample with Dir := { Name := "xyz", Path := "/tmp/xyz" } } : Item).Weight = 0 :=
  ⟨by decide, by decide,
    (Weight_first_match weightSample).1 1 "a" (by decide) (by decide) (by decide),
    (Weight_first_match { weightSample with Dir := { Name := "xyz", Path := "/tmp/xyz" } }).2
      (by decide)⟩

theorem Contains_iff_infix (s p : String) :
    strings.Contains s p = true ↔ p.data <:+: s.data := by
  unfold strings.Contains
  rw [List.any_eq_true, List.infix_iff_prefix_suffix]
  constructor
  · rintro ⟨t, ht, hp⟩
    exact ⟨t, List.isPrefixOf_iff_prefix.1 hp, (List.mem_tails t s.data).1 ht⟩
  · rintro ⟨t, hp, ht⟩
    exact ⟨t, (List.mem_tails t s.data).2 ht, List.isPrefixOf_iff_prefix.2 hp⟩

theorem exists_first_match (i : Item) :
    ∀ (ps : List String) (p : String), p ∈ ps → lftp.Dir.Match i.Dir p = true →
      ∃ k p', ps[k]? = some p' ∧ lftp.Dir.Match i.Dir p' = true ∧
        ∀ q ∈ ps.take k, lftp.Dir.Match i.Dir q = false := by
  intro ps
  induction ps with
  | nil => intro p hp; simp at hp
  | cons x xs ih =>
    intro p hp hm
    by_cases hx : lftp.Dir.Match i.Dir x = true
    · exact ⟨0, x, by simp, hx, by simp⟩
    · have hp2 : p ∈ xs := by
        rcases List.mem_cons.1 hp with rfl | h
        · exact absurd hm hx
        · exact h
      obtain ⟨k, p', h1, h2, h3⟩ := ih p hp2 hm
      refine ⟨k + 1, p', by simpa using h1, h2, ?_⟩
      intro q hq
      rw [List.take_succ_cons] at hq
      rcases List.mem_cons.1 hq with rfl | h
      · simpa using hx
      · exact h3 q h

/-- C2: a priority pattern matches when its text occurs anywhere in the entry
name, so an item whose name contains the text of one of its priority patterns
has a non-zero weight; with the patterns `.PROPER.` and `.REPACK.` a name
containing `.PROPER.` weighs 2, a name containing `.REPACK.` but not
`.PROPER.` weighs 1, and a name containing neither weighs 0. -/
theorem Weight_occurrence_match (i : Item) :
    (∀ p : String, lftp.Dir.Match i.Dir p = true ↔ p.data <:+: i.Dir.Base.data) ∧
      (∀ p ∈ i.Queue.priorities, p.data <:+: i.Dir.Base.data → 0 < i.Weight) ∧
      (i.Queue.priorities = [".PROPER.", ".REPACK."] →
        (".PROPER.".data <:+: i.Dir.Base.data → i.Weight = 2) ∧
        (".REPACK.".data <:+: i.Dir.Base.data → ¬ ".PROPER.".data <:+: i.Dir.Base.data →
          i.Weight = 1) ∧
        (¬ ".PROPER.".data <:+: i.Dir.Base.data → ¬ ".REPACK.".data <:+: i.Dir.Base.data →
          i.Weight = 0)) := by
  have hm : ∀ p : String, lftp.Dir.Match i.Dir p = true ↔ p.data <:+: i.Dir.Base.data :=
    fun p => Contains_iff_infix i.Dir.Base p
  refine ⟨hm, ?_, ?_⟩
  · intro p hp hin
    obtain ⟨k, p', h1, h2, h3⟩ := exists_first_match i i.Queue.priorities p hp ((hm p).2 hin)
    have hw := weightLoop_first i i.Queue.priorities.length i.Queue.priorities 0 k p' h1 h2 h3
    have hk : k < i.Queue.priorities.length := by
      by_contra hge
      rw [List.getElem?_eq_none (by omega)] at h1
      simp at h1
    unfold Item.Weight
    rw [hw]
    omega
  · intro hq
    refine ⟨?_, ?_, ?_⟩
    · intro h1
      have m1 := (hm ".PROPER.").2 h1
      simp [Item.Weight, hq, Item.weightLoop, m1]
    · intro h2 h1
      have m1 : lftp.Dir.Match i.Dir ".PROPER." = false := by
        simpa using fun h => h1 ((hm ".PROPER.").1 h)
      have m2 := (hm ".REPACK.").2 h2
      simp [Item.Weight, hq, Item.weightLoop, m1, m2]
    · intro h1 h2
      have m1 : lftp.Dir.Match i.Dir ".PROPER." = false := by
        simpa using fun h => h1 ((hm ".PROPER.").1 h)
      have m2 : lftp.Dir.Match i.Dir ".REPACK." = false := by
        simpa using fun h => h2 ((hm ".REPACK.").1 h)
      simp [Item.Weight, hq, Item.weightLoop, m1, m2]

/-- C2, at the three items of `TestWeight`: `The.Wire.S01E01.PROPER.foo`
contains `.PROPER.` after its start and weighs 2, `The.Wire.S01E01.REPACK.foo`
weighs 1 and `The.Wire.S01E01.foo` weighs 0. -/
theorem Weight_occurrence_match_witness :
    ¬ ".PROPER.".data <+: properItem.Dir.Base.data ∧ 0 < properItem.Weight ∧
      properItem.Weight = 2 ∧ repackItem.Weight = 1 ∧ plainItem.Weight = 0 :=
  ⟨by decide,
    (Weight_occurrence_match properItem).2.1 ".PROPER." (by decide)
      ⟨"The.Wire.S01E01".data, "foo".data, by decide⟩,
    ((Weight_occurrence_match properItem).2.2 rfl).1
      ⟨"The.Wire.S01E01".data, "foo".data, by decide⟩,
    ((Weight_occurrence_match repackItem).2.2 rfl).2.1
      ⟨"The.Wire.S01E01".data, "foo".data, by decide⟩ (by decide),
    ((Weight_occurrence_match plainItem).2.2 rfl).2.2 (by decide) (by decide)⟩

/-! ## Destination resolution -/

theorem hasSuffix_singleton (l : List Char) (c : Char) :
    [c].isSuffixOf l = true ↔ l.getLast? = some c := by
  rw [List.isSuffixOf_iff_suffix]
  constructor
  · rintro ⟨t, rfl⟩
    simp
  · intro h
    rcases List.eq_nil_or_concat l with rfl | ⟨t, b, rfl⟩
    · simp at h
    · rw [List.concat_eq_append] at h ⊢
      have hb : b = c := by simpa using h
      subst hb
      exact ⟨t, rfl⟩

/-- C3: `DstDir` is `LocalDir` joined with the base name of the entry path
when the last character of `LocalDir` is the path separator, and `LocalDir`
itself otherwise; `/tmp/` with the entry path `/foo/bar` gives `/tmp/bar`, and
`/tmp/foo/bar` stays `/tmp/foo/bar`. -/
theorem DstDir_resolution (i : Item) :
    i.DstDir =
        (if i.LocalDir.data.getLast? = some '/' then
          filepath.Join [i.LocalDir, filepath.Base i.Dir.Path]
        else i.LocalDir) ∧
      ({ LocalDir := "/tmp/", Dir := { Path := "/foo/bar" } } : Item).DstDir = "/tmp/bar" ∧
      ({ LocalDir := "/tmp/foo/bar", Dir := { Path := "/foo/bar" } } : Item).DstDir
        = "/tmp/foo/bar" := by
  refine ⟨?_, by decide, by decide⟩
  unfold Item.DstDir
  by_cases h : i.LocalDir.data.getLast? = some '/'
  · have h2 : strings.HasSuffix i.LocalDir (String.singleton PathSeparator) = true :=
      (hasSuffix_singleton i.LocalDir.data '/').2 h
    rw [if_pos h2, if_pos h]
    rfl
  · have h2 : ¬ strings.HasSuffix i.LocalDir (String.singleton PathSeparator) = true :=
      fun hs => h ((hasSuffix_singleton i.LocalDir.data '/').1 hs)
    rw [if_neg h2, if_neg h]

/-! ## Listing lines -/

theorem cut_none (sep : Char) : ∀ s : List Char, strings.cut sep s = none → s.count sep = 0 := by
  intro s
  induction s with
  | nil => intro _; rfl
  | cons c cs ih =>
    intro h
    unfold strings.cut at h
    by_cases hc : c = sep
    · simp [hc] at h
    · simp only [hc, if_false] at h
      cases hr : strings.cut sep cs with
      | none =>
        have := ih hr
        rw [List.count_cons, this]
        simp [hc]
      | some wr => simp [hr] at h

theorem cut_some (sep : Char) :
    ∀ (s w r : List Char), strings.cut sep s = some (w, r) →
      s = w ++ sep :: r ∧ sep ∉ w ∧ s.count sep = r.count sep + 1 := by
  intro s
  induction s with
  | nil => intro w r h; simp [strings.cut] at h
  | cons c cs ih =>
    intro w r h
    unfold strings.cut at h
    by_cases hc : c = sep
    · simp only [hc, if_true, Option.some.injEq, Prod.mk.injEq] at h
      obtain ⟨rfl, rfl⟩ := h
      subst hc
      simp
    · simp only [hc, if_false] at h
      cases hr : strings.cut sep cs with
      | none => simp [hr] at h
      | some wr =>
        obtain ⟨w1, r1⟩ := wr
        simp only [hr, Option.some.injEq, Prod.mk.injEq] at h
        obtain ⟨rfl, rfl⟩ := h
        obtain ⟨h1, h2, h3⟩ := ih w1 r1 hr
        refine ⟨by rw [h1]; rfl, ?_, ?_⟩
        · simp only [List.mem_cons, not_or]
          exact ⟨fun e => hc e.symm, h2⟩
        · rw [List.count_cons, h3]
          simp [hc]

theorem length_splitNChars (sep : Char) :
    ∀ (n : Nat) (s : List Char),
      (strings.splitNChars sep n s).length = min n (s.count sep + 1) := by
  intro n
  induction n using Nat.strong_induction_on with
  | _ n ih =>
    intro s
    match n with
    | 0 => simp [strings.splitNChars]
    | 1 => simp [strings.splitNChars]
    | n + 2 =>
      unfold strings.splitNChars
      cases hr : strings.cut sep s with
      | none =>
        have := cut_none sep s hr
        simp [this]
      | some wr =>
        obtain ⟨w, r⟩ := wr
        obtain ⟨_, _, h3⟩ := cut_some sep s w r hr
        simp only [List.length_cons, ih (n + 1) (by omega) r, h3]
        omega

theorem splitNChars_step (sep : Char) (n : Nat) (s : List Char) (h : 1 ≤ s.count sep) :
    ∃ w r, strings.splitNChars sep (n + 2) s = w :: strings.splitNChars sep (n + 1) r ∧
      s = w ++ sep :: r ∧ sep ∉ w ∧ s.count sep = r.count sep + 1 := by
  cases hr : strings.cut sep s with
  | none =>
    have := cut_none sep s hr
    omega
  | some wr =>
    obtain ⟨w, r⟩ := wr
    obtain ⟨h1, h2, h3⟩ := cut_some sep s w r hr
    exact ⟨w, r, by simp [strings.splitNChars, hr], h1, h2, h3⟩

theorem splitNChars_five (s : List Char) (h : 4 ≤ s.count ' ') :
    ∃ a b c d e, strings.splitNChars ' ' 5 s = [a, b, c, d, e] ∧
      s = a ++ ' ' :: (b ++ ' ' :: (c ++ ' ' :: (d ++ ' ' :: e))) ∧
      ' ' ∉ a ∧ ' ' ∉ b ∧ ' ' ∉ c ∧ ' ' ∉ d := by
  obtain ⟨a, r1, e1, s1, na, c1⟩ := splitNChars_step ' ' 3 s (by omega)
  obtain ⟨b, r2, e2, s2, nb, c2⟩ := splitNChars_step ' ' 2 r1 (by omega)
  obtain ⟨c, r3, e3, s3, nc, c3⟩ := splitNChars_step ' ' 1 r2 (by omega)
  obtain ⟨d, r4, e4, s4, nd, c4⟩ := splitNChars_step ' ' 0 r3 (by omega)
  refine ⟨a, b, c, d, r4, ?_, ?_, na, nb, nc, nd⟩
  · rw [e1, e2, e3, e4]
    rfl
  · rw [s1, s2, s3, s4]

theorem length_SplitN (s : String) (n : Nat) :
    (strings.SplitN s ' ' n).length = min n (s.data.count ' ' + 1) := by
  simp [strings.SplitN, length_splitNChars]

/-- C4, the clauses that fail: a line of six whitespace-separated tokens
whose first four form a timestamp is accepted, the name being the rest of the
line, and a line of four tokens, a timestamp followed by one space, is
accepted with the empty name. -/
theorem ParseDir_accepts_six_tokens :
    ((whitespaceTokens lineWithSpace).length = 6 ∧
      ParseDir time.Parse lineWithSpace
        = .ok { Created := 1403673133000000000, Name := "my dir", IsSymlink := false }) ∧
    ((whitespaceTokens lineTrailingSpace).length = 4 ∧
      ParseDir time.Parse lineTrailingSpace
        = .ok { Created := 1403673133000000000, Name := "", IsSymlink := false }) := by
  refine ⟨⟨by decide, by rfl⟩, ⟨by decide, by rfl⟩⟩

/-- C4, amended: `ParseDir` returns an error exactly when the line has fewer
than four space characters or the first four pieces of the line, joined by
single spaces, do not parse as a timestamp in the fixed layout; a line with at
least four spaces is cut at its first four spaces into four pieces without a
space and the unsplit rest of the line, which is the name token, and it is
accepted with the parsed time whenever the four pieces parse, whatever the
number of its whitespace-separated tokens: the six-token line with a space in
its name and the four-token line with a trailing space are both accepted. -/
theorem ParseDir_error_iff (parse : String → String → Except String Time) (s : String) :
    ((∃ e, ParseDir parse s = .error e) ↔
        (s.data.count ' ' < 4 ∨
          ∃ e, parse "2006-01-02 15:04:05 -0700 MST"
            (strings.Join ((strings.SplitN s ' ' 5).take 4) " ") = .error e)) ∧
      (4 ≤ s.data.count ' ' →
        ∃ a b c d e : String, strings.SplitN s ' ' 5 = [a, b, c, d, e] ∧
          s = a ++ " " ++ b ++ " " ++ c ++ " " ++ d ++ " " ++ e ∧
          ' ' ∉ a.data ∧ ' ' ∉ b.data ∧ ' ' ∉ c.data ∧ ' ' ∉ d.data) ∧
      (∀ t : Time, 4 ≤ s.data.count ' ' →
        parse "2006-01-02 15:04:05 -0700 MST"
          (strings.Join ((strings.SplitN s ' ' 5).take 4) " ") = .ok t →
        ParseDir parse s
          = .ok { Created := t,
                  Name := strings.TrimRight ((strings.SplitN s ' ' 5).getD 4 "") "@/",
                  IsSymlink := strings.HasSuffix ((strings.SplitN s ' ' 5).getD 4 "") "@" }) ∧
      ((whitespaceTokens lineWithSpace).length = 6 ∧
        ParseDir time.Parse lineWithSpace
          = .ok { Created := 1403673133000000000, Name := "my dir", IsSymlink := false }) ∧
      ((whitespaceTokens lineTrailingSpace).length = 4 ∧
        ParseDir time.Parse lineTrailingSpace
          = .ok { Created := 1403673133000000000, Name := "", IsSymlink := false }) := by
  have hlen := length_SplitN s 5
  refine ⟨?_, ?_, ?_, ⟨by decide, by rfl⟩, ⟨by decide, by rfl⟩⟩
  · unfold ParseDir
    by_cases hc : s.data.count ' ' < 4
    · have h5 : (strings.SplitN s ' ' 5).length ≠ 5 := by omega
      simp [h5, hc]
    · have h5 : (strings.SplitN s ' ' 5).length = 5 := by omega
      simp only [h5, ne_eq, not_true_eq_false, if_false, hc, false_or]
      cases hp : parse timeLayout (strings.Join ((strings.SplitN s ' ' 5).take 4) " ") with
      | error err =>
        have hp2 := hp
        unfold timeLayout at hp2
        simp [hp2]
      | ok created =>
        have hp2 := hp
        unfold timeLayout at hp2
        simp [hp2]
  · intro h4
    obtain ⟨a, b, c, d, e, h1, h2, na, nb, nc, nd⟩ := splitNChars_five s.data h4
    refine ⟨⟨a⟩, ⟨b⟩, ⟨c⟩, ⟨d⟩, ⟨e⟩, ?_, ?_, na, nb, nc, nd⟩
    · simp [strings.SplitN, h1]
    · apply String.ext
      simp only [String.data_append]
      rw [h2]
      simp
  · intro t h4 hp
    have h5 : (strings.SplitN s ' ' 5).length = 5 := by omega
    have hp2 : parse timeLayout (strings.Join ((strings.SplitN s ' ' 5).take 4) " ") = .ok t := hp
    unfold ParseDir
    simp only [h5, ne_eq, not_true_eq_false, if_false, hp2]

/-- C4, amended, at a line with a space in its name (cut into five pieces and
accepted), at the line with a trailing space (accepted with the empty name)
and at a line of three tokens (an error). -/
theorem ParseDir_error_iff_witness :
    (4 ≤ lineWithSpace.data.count ' ' ∧
      ∃ a b c d e : String, strings.SplitN lineWithSpace ' ' 5 = [a, b, c, d, e] ∧
        lineWithSpace = a ++ " " ++ b ++ " " ++ c ++ " " ++ d ++ " " ++ e ∧
        ' ' ∉ a.data ∧ ' ' ∉ b.data ∧ ' ' ∉ c.data ∧ ' ' ∉ d.data) ∧
      ("2014-06-25 07:12:13 +0200".data.count ' ' < 4 ∧
        ∃ e, ParseDir time.Parse "2014-06-25 07:12:13 +0200" = .error e) ∧
      (4 ≤ lineTrailingSpace.data.count ' ' ∧
        ParseDir time.Parse lineTrailingSpace
          = .ok { Created := 1403673133000000000,
                  Name :=
                    strings.TrimRight ((strings.SplitN lineTrailingSpace ' ' 5).getD 4 "") "@/",
                  IsSymlink :=
                    strings.HasSuffix ((strings.SplitN lineTrailingSpace ' ' 5).getD 4 "")
                      "@" }) :=
  ⟨⟨by decide, (ParseDir_error_iff time.Parse lineWithSpace).2.1 (by decide)⟩,
    ⟨by decide,
      (ParseDir_error_iff time.Parse "2014-06-25 07:12:13 +0200").1.2 (Or.inl (by decide))⟩,
    ⟨by decide,
      (ParseDir_error_iff time.Parse lineTrailingSpace).2.2.1 1403673133000000000 (by decide)
        (by rfl)⟩⟩

theorem rdropWhile_split (p : Char → Bool) (l : List Char) :
    ∃ m, l = l.rdropWhile p ++ m ∧ ∀ c ∈ m, p c = true := by
  refine ⟨(l.reverse.takeWhile p).reverse, ?_, ?_⟩
  · have h := List.takeWhile_append_dropWhile p l.reverse
    have h2 := congrArg List.reverse h
    rw [List.reverse_append, List.reverse_reverse] at h2
    exact h2.symm
  · intro c hc
    rw [List.mem_reverse] at hc
    exact (List.mem_takeWhile_imp hc)

theorem rdropWhile_getLast (p : Char → Bool) (l : List Char) (c : Char) (hc : p c = true) :
    (l.rdropWhile p).getLast? ≠ some c := by
  intro h
  by_cases hn : l.rdropWhile p = []
  · rw [hn] at h
    simp at h
  · have h1 := List.rdropWhile_last_not p l hn
    rw [List.getLast?_eq_getLast _ hn] at h
    simp only [Option.some.injEq] at h
    rw [h] at h1
    exact h1 hc

/-- C5, the part that fails: for the name token `foo@/` the stripped trailing
characters `@/` contain the marker `@`, and `IsSymlink` is false. -/
theorem ParseDir_at_before_slash :
    (strings.SplitN lineAtSlash ' ' 5)[4]? = some "foo@/" ∧
      "foo@/".data = "foo".data ++ ['@', '/'] ∧
      ParseDir time.Parse lineAtSlash
        = .ok { Created := 1403673133000000000, Name := "foo", IsSymlink := false } := by
  refine ⟨by decide, by decide, by rfl⟩

/-- C5, amended: for every accepted line, the name token is `Name` followed
only by the marker characters `@` and `/`, `Name` does not end in `/` or `@`,
and `IsSymlink` is true exactly when the last character of the name token is
`@` (in which case `@` is among the stripped characters). -/
theorem ParseDir_name_token (parse : String → String → Except String Time) (s : String)
    (d : Dir) (h : ParseDir parse s = .ok d) :
    ∃ (tok : String) (m : List Char), (strings.SplitN s ' ' 5)[4]? = some tok ∧
      d.Name = strings.TrimRight tok "@/" ∧
      tok.data = d.Name.data ++ m ∧ (∀ c ∈ m, c = '@' ∨ c = '/') ∧
      d.Name.data.getLast? ≠ some '/' ∧ d.Name.data.getLast? ≠ some '@' ∧
      (d.IsSymlink = true ↔ tok.data.getLast? = some '@') ∧
      (d.IsSymlink = true → '@' ∈ m) := by
  unfold ParseDir at h
  by_cases h5 : (strings.SplitN s ' ' 5).length = 5
  · simp only [h5, ne_eq, not_true_eq_false, if_false] at h
    cases hp : parse timeLayout (strings.Join ((strings.SplitN s ' ' 5).take 4) " ") with
    | error err => simp [hp] at h
    | ok created =>
      simp only [hp, Except.ok.injEq] at h
      have h4 : 4 < (strings.SplitN s ' ' 5).length := by omega
      have htok : (strings.SplitN s ' ' 5).getD 4 "" = (strings.SplitN s ' ' 5)[4] := by
        simp [List.getD_eq_getElem?_getD, List.getElem?_eq_getElem h4]
      rw [htok] at h
      obtain ⟨tok, htk⟩ : ∃ tok, (strings.SplitN s ' ' 5)[4] = tok := ⟨_, rfl⟩
      rw [htk] at h
      obtain ⟨m, hm1, hm2⟩ :=
        rdropWhile_split (fun c => decide (c ∈ "@/".data)) tok.data
      have hmark : ∀ c ∈ m, c = '@' ∨ c = '/' := by
        intro c hc
        have := hm2 c hc
        simpa using this
      have hname : d.Name.data = tok.data.rdropWhile (fun c => decide (c ∈ "@/".data)) := by
        rw [← h]
        rfl
      have hsym : d.IsSymlink = true ↔ tok.data.getLast? = some '@' := by
        rw [← h]
        exact hasSuffix_singleton tok.data '@'
      refine ⟨tok, m, by simp [List.getElem?_eq_getElem h4, htk], by rw [← h], ?_, hmark, ?_, ?_,
        hsym, ?_⟩
      · rw [hname]
        exact hm1
      · rw [hname]
        exact rdropWhile_getLast _ _ '/' (by decide)
      · rw [hname]
        exact rdropWhile_getLast _ _ '@' (by decide)
      · intro hs
        have hl := hsym.1 hs
        rw [hm1] at hl
        by_cases hmn : m = []
        · subst hmn
          rw [List.append_nil] at hl
          exact absurd hl (rdropWhile_getLast _ _ '@' (by decide))
        · rw [List.getLast?_append_of_ne_nil _ hmn] at hl
          exact List.mem_of_getLast?_eq_some hl
  · simp [h5] at h

/-- C5, amended, at the accepted line whose name token is `foo@/`. -/
theorem ParseDir_name_token_witness :
    ∃ (tok : String) (m : List Char), (strings.SplitN lineAtSlash ' ' 5)[4]? = some tok ∧
      ("foo" : String) = strings.TrimRight tok "@/" ∧
      tok.data = "foo".data ++ m ∧ (∀ c ∈ m, c = '@' ∨ c = '/') ∧
      "foo".data.getLast? ≠ some '/' ∧ "foo".data.getLast? ≠ some '@' ∧
      (false = true ↔ tok.data.getLast? = some '@') ∧
      (false = true → '@' ∈ m) :=
  ParseDir_name_token time.Parse lineAtSlash
    { Created := 1403673133000000000, Name := "foo", IsSymlink := false } (by rfl)

/-! ## Age and patterns -/

/-- C6: evaluation of `CreatedAfter` at an entry created exactly `age` before
`now`: the result is false, as it is for an entry created one second
earlier. -/
theorem CreatedAfter_at_boundary (now : Time) (age : Duration) (d : Dir) :
    Dir.CreatedAfter now { d with Created := now - age } age = false ∧
      Dir.CreatedAfter now { d with Created := now - age - Second } age = false ∧
      Dir.CreatedAfter now { d with Created := now - age + Second } age = true := by
  have h1 : ∀ a b : Int, ¬ a - b > a + -b := by intro a b; omega
  have h2 : ∀ a b : Int, ¬ a - b - 1000000000 > a + -b := by intro a b; omega
  have h3 : ∀ a b : Int, a - b + 1000000000 > a + -b := by intro a b; omega
  simp only [Dir.CreatedAfter, Second, decide_eq_false_iff_not, decide_eq_true_eq]
  exact ⟨h1 now age, h2 now age, h3 now age⟩

/-- C7: `MatchAny` is true exactly when some pattern of the list is a prefix
of the entry name, `Match` being the prefix test; it is false for the empty
list. -/
theorem MatchAny_iff_prefix (d : Dir) (ss : List String) :
    (d.MatchAny ss = true ↔ ∃ s ∈ ss, s.data <+: d.Name.data) ∧
      (∀ s : String, d.Match s = true ↔ s.data <+: d.Name.data) ∧
      d.MatchAny [] = false := by
  have hm : ∀ s : String, d.Match s = true ↔ s.data <+: d.Name.data := by
    intro s
    unfold Dir.Match strings.HasPrefix
    exact List.isPrefixOf_iff_prefix
  refine ⟨?_, hm, rfl⟩
  induction ss with
  | nil => simp [Dir.MatchAny]
  | cons a as ih =>
    unfold Dir.MatchAny
    by_cases ha : d.Match a = true
    · simp only [ha, if_true, true_iff]
      exact ⟨a, by simp, (hm a).1 ha⟩
    · simp only [ha, Bool.false_eq_true, if_false, ih, List.mem_cons, exists_eq_or_imp]
      constructor
      · intro h
        exact Or.inr h
      · rintro (h | h)
        · exact absurd ((hm a).2 h) ha
        · exact h

/-- C8: evaluation of `MatchAny` with the pattern list of `TestNewQueue`: the
names `dir3` and `dir4` are not matched by the pattern written `dir\d`, and
neither is `foo`. -/
theorem MatchAny_digit_pattern :
    Dir.MatchAny { Name := "dir3", Path := "/tmp/dir3" } ["dir\\d"] = false ∧
      Dir.MatchAny { Name := "dir4", Path := "/tmp/dir4" } ["dir\\d"] = false ∧
      Dir.MatchAny { Name := "foo", Path := "/tmp/foo" } ["dir\\d"] = false := by
  decide

/-! ## Accept, Reject and the reason -/

/-- C9: `Accept r` sets `Transfer` to true and `Reason` to `r`, `Reject r`
sets `Transfer` to false and `Reason` to `r`; the entry, `LocalDir`, `Media`
and the queue are unchanged, and a later call overrides an earlier one. -/
theorem Accept_Reject_frame (i : Item) (r r2 : String) :
    ((i.Accept r).Transfer = true ∧ (i.Accept r).Reason = r ∧
        (i.Accept r).Dir = i.Dir ∧ (i.Accept r).LocalDir = i.LocalDir ∧
        (i.Accept r).Media = i.Media ∧ (i.Accept r).Queue = i.Queue) ∧
      ((i.Reject r).Transfer = false ∧ (i.Reject r).Reason = r ∧
        (i.Reject r).Dir = i.Dir ∧ (i.Reject r).LocalDir = i.LocalDir ∧
        (i.Reject r).Media = i.Media ∧ (i.Reject r).Queue = i.Queue) ∧
      ((i.Accept r).Accept r2 = i.Accept r2 ∧ (i.Reject r).Accept r2 = i.Accept r2 ∧
        (i.Accept r).Reject r2 = i.Reject r2 ∧ (i.Reject r).Reject r2 = i.Reject r2) :=
  ⟨⟨rfl, rfl, rfl, rfl, rfl, rfl⟩, ⟨rfl, rfl, rfl, rfl, rfl, rfl⟩, ⟨rfl, rfl, rfl, rfl⟩⟩

/-- C10, the part that fails: a newly built item has a non-empty reason, and
accepting or rejecting it with the empty reason, as `TestDeduplicate` does,
leaves it with the empty reason. -/
theorem Accept_empty_reason :
    (newItem sampleQueue { Path := "/tmp/The.Wire.S01E01.foo" }).Reason = "no match" ∧
      ((newItem sampleQueue { Path := "/tmp/The.Wire.S01E01.foo" }).Accept "").Reason = "" ∧
      ((newItem sampleQueue { Path := "/tmp/The.Wire.S01E01.foo" }).Reject "").Reason = "" := by
  refine ⟨by decide, by decide, by decide⟩

/-- C10, amended: when the messages of the parser and template errors of the
queue are non-empty, every item built by `newItem` has a non-empty reason and
`setMetadata` keeps a non-empty reason non-empty; `Accept r` and `Reject r`
leave exactly `r` as the reason, so they keep it non-empty exactly when `r` is
non-empty. -/
theorem Reason_nonempty (q : Queue)
    (hp : ∀ n e, q.parser n = .error e → e ≠ "")
    (ht : ∀ t m e, q.localDir = some t → t m = .error e → e ≠ "") :
    (∀ d, (newItem q d).Reason ≠ "") ∧
      (∀ i : Item, i.Queue = q → i.Reason ≠ "" → i.setMetadata.Reason ≠ "") ∧
      (∀ (i : Item) (r : String),
        ((i.Accept r).Reason ≠ "" ↔ r ≠ "") ∧ ((i.Reject r).Reason ≠ "" ↔ r ≠ "")) := by
  have hset : ∀ i : Item, i.Queue = q → i.Reason ≠ "" → i.setMetadata.Reason ≠ "" := by
    intro i hq hr
    unfold Item.setMetadata
    cases hpar : i.Queue.parser i.Dir.Base with
    | error err =>
      rw [hq] at hpar
      simpa [Item.Reject] using hp _ _ hpar
    | ok m =>
      simp only
      unfold Item.parseLocalDir
      cases hl : i.Queue.localDir with
      | none => simp [Item.Reject]
      | some t =>
        simp only
        cases hex : t m with
        | error err =>
          rw [hq] at hl
          simpa [Item.Reject] using ht t m err hl hex
        | ok dir => simpa using hr
  refine ⟨?_, hset, ?_⟩
  · intro d
    exact hset { Queue := q, Dir := d, Reason := "no match" } rfl (by simp)
  · intro i r
    exact ⟨Iff.rfl, Iff.rfl⟩

/-- C10, amended, at a queue whose parser fails on `bar` with a non-empty
message: the item built for `/foo/bar` carries that message as its reason. -/
theorem Reason_nonempty_witness :
    (newItem sampleQueue { Path := "/foo/bar" }).Reason = "cannot parse bar" ∧
      (newItem sampleQueue { Path := "/foo/bar" }).Reason ≠ "" ∧
      (newItem sampleQueue { Path := "/foo/baz" }).Reason ≠ "" :=
  have hq := Reason_nonempty sampleQueue
    (by
      intro n e h
      unfold sampleQueue at h
      by_cases hn : n = "bar"
      · simp only [hn, if_true, Except.error.injEq] at h
        rw [← h]
        decide
      · simp [hn] at h)
    (by
      intro t m e h1 h2
      unfold sampleQueue at h1
      simp only [Option.some.injEq] at h1
      rw [← h1] at h2
      simp at h2)
  ⟨by decide, hq.1 _, hq.1 _⟩

/-! ## Sorting of `Items` -/

theorem lessChars_asymm :
    ∀ a b : List Char, strings.lessChars a b = true → strings.lessChars b a = false := by
  intro a
  induction a with
  | nil => intro b _; cases b <;> rfl
  | cons x as ih =>
    intro b h
    cases b with
    | nil => simp [strings.lessChars] at h
    | cons y bs =>
      unfold strings.lessChars at h ⊢
      by_cases hxy : x < y
      · simp [hxy, lt_asymm hxy]
      · by_cases hyx : y < x
        · simp [hxy, hyx] at h
        · simp only [hxy, hyx, if_false] at h ⊢
          exact ih bs h

theorem lessChars_negtrans :
    ∀ a b c : List Char, strings.lessChars a b = false → strings.lessChars b c = false →
      strings.lessChars a c = false := by
  intro a
  induction a with
  | nil =>
    intro b c h1 h2
    cases b with
    | nil => exact h2
    | cons y bs => simp [strings.lessChars] at h1
  | cons x as ih =>
    intro b c h1 h2
    cases c with
    | nil => rfl
    | cons z cs =>
      cases b with
      | nil => simp [strings.lessChars] at h2
      | cons y bs =>
        unfold strings.lessChars at h1 h2 ⊢
        by_cases hxy : x < y
        · simp [hxy] at h1
        · by_cases hyz : y < z
          · simp [hyz] at h2
          · have hxz : ¬ x < z := fun h => by
              rcases lt_trichotomy x y with h3 | h3 | h3
              · exact hxy h3
              · exact hyz (h3 ▸ h)
              · exact hyz (lt_trans h3 h)
            simp only [hxy, hyz, hxz, if_false] at h1 h2 ⊢
            by_cases hzx : z < x
            · simp [hzx]
            · have hyx : ¬ y < x := fun h => by
                rcases lt_trichotomy y z with h3 | h3 | h3
                · exact hyz h3
                · exact hzx (h3 ▸ h)
                · exact hzx (lt_trans h3 h)
              have hzy : ¬ z < y := fun h => hzx (by
                rcases lt_trichotomy x y with h3 | h3 | h3
                · exact absurd h3 hxy
                · exact h3 ▸ h
                · exact absurd h3 hyx)
              simp only [hyx, hzy, hzx, if_false] at h1 h2 ⊢
              exact ih bs cs h1 h2

theorem notLess_total (x y : Item) : x.notLess y ∨ y.notLess x := by
  unfold Item.notLess strings.Less
  cases h : strings.lessChars x.Dir.Path.data y.Dir.Path.data with
  | false => exact Or.inl rfl
  | true => exact Or.inr (lessChars_asymm _ _ h)

theorem notLess_trans (x y z : Item) (h1 : x.notLess y) (h2 : y.notLess z) : x.notLess z :=
  lessChars_negtrans _ _ _ h1 h2

theorem sorted_orderedInsert (x : Item) :
    ∀ l : List Item, l.Pairwise Item.notLess → (l.orderedInsert Item.notLess x).Pairwise Item.notLess := by
  intro l
  induction l with
  | nil => intro _; simp
  | cons y l ih =>
    intro h
    rw [List.orderedInsert]
    by_cases hxy : x.notLess y
    · rw [if_pos hxy]
      refine List.Pairwise.cons ?_ h
      intro b hb
      rcases List.mem_cons.1 hb with rfl | hb
      · exact hxy
      · exact notLess_trans _ _ _ hxy (List.rel_of_pairwise_cons h hb)
    · rw [if_neg hxy]
      have hyx : y.notLess x := (notLess_total x y).resolve_left hxy
      refine List.Pairwise.cons ?_ (ih (List.Pairwise.of_cons h))
      intro b hb
      have hb2 : b ∈ x :: l := (List.perm_orderedInsert _ x l).subset hb
      rcases List.mem_cons.1 hb2 with rfl | hb2
      · exact hyx
      · exact List.rel_of_pairwise_cons h hb2

theorem getD_at_length (l t : List Item) (a d : Item) :
    (l ++ a :: t).getD l.length d = a := by
  induction l with
  | nil => rfl
  | cons y l ih => simpa using ih

theorem set_at_length (l t : List Item) (a c : Item) :
    (l ++ a :: t).set l.length c = l ++ c :: t := by
  simp

theorem swap_adjacent (l t : List Item) (a b : Item) :
    Items.Swap (l ++ a :: b :: t) (l.length + 1) l.length = l ++ b :: a :: t := by
  have e1 : l ++ a :: b :: t = (l ++ [a]) ++ b :: t := by simp
  have hb : (l ++ a :: b :: t).getD (l.length + 1) {} = b := by
    rw [e1]
    have := getD_at_length (l ++ [a]) t b {}
    simpa using this
  have ha : (l ++ a :: b :: t).getD l.length {} = a := getD_at_length l (b :: t) a {}
  unfold Items.Swap
  rw [hb, ha]
  have h1 : (l ++ a :: b :: t).set (l.length + 1) a = l ++ a :: a :: t := by
    simp
  rw [h1]
  exact set_at_length l (a :: t) a b

theorem less_adjacent (l t : List Item) (a b : Item) :
    Items.Less (l ++ a :: b :: t) (l.length + 1) l.length = strings.Less b.Dir.Path a.Dir.Path := by
  have e1 : l ++ a :: b :: t = (l ++ [a]) ++ b :: t := by simp
  have hb : (l ++ a :: b :: t).getD (l.length + 1) {} = b := by
    rw [e1]
    have := getD_at_length (l ++ [a]) t b {}
    simpa using this
  have ha : (l ++ a :: b :: t).getD l.length {} = a := getD_at_length l (b :: t) a {}
  unfold Items.Less
  rw [hb, ha]

theorem sink_orderedInsert (x : Item) :
    ∀ (rp post : List Item),
      sort.sink Items.Interface (rp.reverse ++ x :: post) rp.length
        = (rp.orderedInsert Item.notLess x).reverse ++ post := by
  intro rp
  induction rp with
  | nil => intro post; simp [sort.sink]
  | cons y rp ih =>
    intro post
    have e : (y :: rp).reverse ++ x :: post = rp.reverse ++ y :: x :: post := by simp
    have hl : rp.length = rp.reverse.length := by simp
    rw [e, List.length_cons, sort.sink]
    have hless : Items.Interface.Less (rp.reverse ++ y :: x :: post) (rp.length + 1) rp.length
        = strings.Less x.Dir.Path y.Dir.Path := by
      have := less_adjacent rp.reverse post y x
      rw [← hl] at this
      exact this
    have hswap : Items.Interface.Swap (rp.reverse ++ y :: x :: post) (rp.length + 1) rp.length
        = rp.reverse ++ x :: y :: post := by
      have := swap_adjacent rp.reverse post y x
      rw [← hl] at this
      exact this
    rw [hless, hswap, List.orderedInsert]
    cases hxy : strings.Less x.Dir.Path y.Dir.Path with
    | true =>
      have hn : ¬ x.notLess y := by
        unfold Item.notLess
        rw [hxy]
        decide
      rw [if_neg hn, if_pos rfl, ih (y :: post)]
      simp
    | false =>
      have hn : x.notLess y := hxy
      rw [if_pos hn]
      simp

theorem insertFrom_foldl :
    ∀ (rest rp : List Item),
      sort.insertFrom Items.Interface (rp.reverse ++ rest) rp.length rest.length
        = (rest.foldl (fun acc x => acc.orderedInsert Item.notLess x) rp).reverse := by
  intro rest
  induction rest with
  | nil => intro rp; simp [sort.insertFrom]
  | cons x rest ih =>
    intro rp
    rw [List.length_cons, sort.insertFrom, sink_orderedInsert x rp rest]
    have := ih (rp.orderedInsert Item.notLess x)
    rw [List.orderedInsert_length] at this
    rw [this]
    rfl

theorem foldl_orderedInsert_sorted :
    ∀ (rest rp : List Item), rp.Pairwise Item.notLess →
      (rest.foldl (fun acc x => acc.orderedInsert Item.notLess x) rp).Pairwise Item.notLess := by
  intro rest
  induction rest with
  | nil => intro rp h; exact h
  | cons x rest ih =>
    intro rp h
    exact ih _ (sorted_orderedInsert x rp h)

theorem foldl_orderedInsert_perm :
    ∀ (rest rp : List Item),
      (rest.foldl (fun acc x => acc.orderedInsert Item.notLess x) rp).Perm (rp.reverse ++ rest) := by
  intro rest
  induction rest with
  | nil => intro rp; simpa using (List.reverse_perm rp).symm
  | cons x rest ih =>
    intro rp
    refine (ih (rp.orderedInsert Item.notLess x)).trans ?_
    have h1 : (rp.orderedInsert Item.notLess x).reverse.Perm (x :: rp) :=
      (List.reverse_perm _).trans (List.perm_orderedInsert _ x rp)
    have h2 : (rp.reverse ++ [x]).Perm (x :: rp) := by
      simpa using (List.reverse_perm (x :: rp))
    have h3 : (rp.orderedInsert Item.notLess x).reverse.Perm (rp.reverse ++ [x]) := h1.trans h2.symm
    have := h3.append_right rest
    simpa using this

theorem sortData_eq (x : Item) (rest : List Item) :
    sort.sortData Items.Interface (x :: rest)
      = (rest.foldl (fun acc y => acc.orderedInsert Item.notLess y) [x]).reverse := by
  have := insertFrom_foldl rest [x]
  simpa [sort.sortData, Items.Interface, Items.Len] using this

/-- C13: sorting items with `Len`, `Less` and `Swap` of `Items` gives a
permutation of the input in which no later item has a smaller entry path than
an earlier one, whatever the input order; the four paths of `TestItemsSort`
come out as `/x/a`, `/x/b`, `/x/c`, `/y/a`. -/
theorem Items_sort_ascending (s : List Item) :
    (sort.sortData Items.Interface s).Perm s ∧
      (sort.sortData Items.Interface s).Pairwise
        (fun a b => strings.Less b.Dir.Path a.Dir.Path = false) ∧
      (∀ i j : Nat, i < j → j < (sort.sortData Items.Interface s).length →
        strings.Less ((sort.sortData Items.Interface s).getD j {}).Dir.Path
          ((sort.sortData Items.Interface s).getD i {}).Dir.Path = false) ∧
      (sort.sortData Items.Interface sortSample).map (fun i => i.Dir.Path)
        = ["/x/a", "/x/b", "/x/c", "/y/a"] := by
  have hperm : (sort.sortData Items.Interface s).Perm s := by
    cases s with
    | nil => simp [sort.sortData, sort.insertFrom, Items.Interface, Items.Len]
    | cons x rest =>
      rw [sortData_eq]
      refine (List.reverse_perm _).trans ?_
      simpa using foldl_orderedInsert_perm rest [x]
  have hsorted : (sort.sortData Items.Interface s).Pairwise
      (fun a b => strings.Less b.Dir.Path a.Dir.Path = false) := by
    cases s with
    | nil => simp [sort.sortData, sort.insertFrom, Items.Interface, Items.Len]
    | cons x rest =>
      rw [sortData_eq, List.pairwise_reverse]
      exact foldl_orderedInsert_sorted rest [x] (List.pairwise_singleton _ _)
  refine ⟨hperm, hsorted, ?_, by decide⟩
  intro i j hij hj
  have hi : i < (sort.sortData Items.Interface s).length := lt_trans hij hj
  have := List.pairwise_iff_getElem.1 hsorted i j hi hj hij
  simpa [List.getD_eq_getElem?_getD, List.getElem?_eq_getElem hi, List.getElem?_eq_getElem hj]
    using this

/-- C13, at the four items of `TestItemsSort`: the item at position 3 of the
sorted list is not smaller than the item at position 0. -/
theorem Items_sort_ascending_witness :
    strings.Less ((sort.sortData Items.Interface sortSample).getD 3 {}).Dir.Path
      ((sort.sortData Items.Interface sortSample).getD 0 {}).Dir.Path = false :=
  (Items_sort_ascending sortSample).2.2.1 0 3 (by decide) (by decide)

/-! ## Metadata of an item -/

theorem setMetadata_parser_error (i : Item) (e : String)
    (hp : i.Queue.parser i.Dir.Base = .error e) : i.setMetadata = i.Reject e := by
  unfold Item.setMetadata
  rw [hp]

theorem setMetadata_no_template (i : Item) (m : Media)
    (hp : i.Queue.parser i.Dir.Base = .ok m) (hl : i.Queue.localDir = none) :
    i.setMetadata = ({ i with Media := m } : Item).Reject "template is not set" := by
  unfold Item.setMetadata
  rw [hp]
  simp only [Item.parseLocalDir, hl]

theorem setMetadata_template_error (i : Item) (m : Media)
    (t : Media → Except String String) (e : String)
    (hp : i.Queue.parser i.Dir.Base = .ok m) (hl : i.Queue.localDir = some t)
    (ht : t m = .error e) :
    i.setMetadata = ({ i with Media := m } : Item).Reject e := by
  unfold Item.setMetadata
  rw [hp]
  simp only [Item.parseLocalDir, hl, ht]

theorem setMetadata_rendered (i : Item) (m : Media)
    (t : Media → Except String String) (d : String)
    (hp : i.Queue.parser i.Dir.Base = .ok m) (hl : i.Queue.localDir = some t)
    (ht : t m = .ok d) :
    i.setMetadata = { i with Media := m, LocalDir := d } := by
  unfold Item.setMetadata
  rw [hp]
  simp only [Item.parseLocalDir, hl, ht]

/-- C11: when the media parser fails on the base name of the entry, or it
succeeds and the template is not set or fails to render, `setMetadata`
leaves the item, whatever its earlier match outcome, with `Transfer` false,
`Reason` equal to the message of that error (`template is not set` for the
missing template) and `LocalDir` as it was; `setMetadata` returns the item
and no error, and a newly built item keeps the empty `LocalDir`. -/
theorem setMetadata_captures_errors (i : Item) :
    (∀ e, i.Queue.parser i.Dir.Base = .error e →
        i.setMetadata.Transfer = false ∧ i.setMetadata.Reason = e ∧
          i.setMetadata.LocalDir = i.LocalDir) ∧
      (∀ m, i.Queue.parser i.Dir.Base = .ok m → i.Queue.localDir = none →
        i.setMetadata.Transfer = false ∧ i.setMetadata.Reason = "template is not set" ∧
          i.setMetadata.LocalDir = i.LocalDir) ∧
      (∀ m t e, i.Queue.parser i.Dir.Base = .ok m → i.Queue.localDir = some t →
        t m = .error e →
        i.setMetadata.Transfer = false ∧ i.setMetadata.Reason = e ∧
          i.setMetadata.LocalDir = i.LocalDir) ∧
      (∀ (q : Queue) (d : Dir),
        (∀ e, q.parser d.Base = .error e → (newItem q d).LocalDir = "") ∧
        (∀ m e, q.parser d.Base = .ok m →
          ({ Queue := q, Media := m } : Item).parseLocalDir = .error e →
          (newItem q d).LocalDir = "")) := by
  refine ⟨?_, ?_, ?_, ?_⟩
  · intro e hp
    rw [setMetadata_parser_error i e hp]
    exact ⟨rfl, rfl, rfl⟩
  · intro m hp hl
    rw [setMetadata_no_template i m hp hl]
    exact ⟨rfl, rfl, rfl⟩
  · intro m t e hp hl ht
    rw [setMetadata_template_error i m t e hp hl ht]
    exact ⟨rfl, rfl, rfl⟩
  · intro q d
    refine ⟨?_, ?_⟩
    · intro e hp
      unfold newItem
      simp only
      rw [setMetadata_parser_error _ e hp]
      rfl
    · intro m e hp hl
      unfold newItem Item.setMetadata
      simp only
      rw [hp]
      simp only
      have : ({ Dir := d, Reason := "no match", Media := m, Queue := q } : Item).parseLocalDir
          = .error e := hl
      rw [this]
      rfl

/-- C11, at an accepted item for the entry `/foo/bar` of
`TestNewItemUnparsable`, whose name the parser rejects, and at an accepted
item of a queue without a template. -/
theorem setMetadata_captures_errors_witness :
    (({ Dir := { Path := "/foo/bar" }, Transfer := true, Reason := "Match=bar",
          LocalDir := "/old/", Queue := sampleQueue } : Item).setMetadata.Transfer = false ∧
      ({ Dir := { Path := "/foo/bar" }, Transfer := true, Reason := "Match=bar",
          LocalDir := "/old/", Queue := sampleQueue } : Item).setMetadata.Reason
        = "cannot parse bar" ∧
      ({ Dir := { Path := "/foo/bar" }, Transfer := true, Reason := "Match=bar",
          LocalDir := "/old/", Queue := sampleQueue } : Item).setMetadata.LocalDir = "/old/") ∧
    (({ Dir := { Path := "/foo/The.Wire.S03E01" }, Transfer := true,
          Queue := { parser := parser.Show } } : Item).setMetadata.Transfer = false ∧
      ({ Dir := { Path := "/foo/The.Wire.S03E01" }, Transfer := true,
          Queue := { parser := parser.Show } } : Item).setMetadata.Reason
        = "template is not set" ∧
      ({ Dir := { Path := "/foo/The.Wire.S03E01" }, Transfer := true,
          Queue := { parser := parser.Show } } : Item).setMetadata.LocalDir = "") ∧
    (newItem sampleQueue { Path := "/foo/bar" }).LocalDir = "" :=
  ⟨(setMetadata_captures_errors _).1 "cannot parse bar" (by rfl),
    (setMetadata_captures_errors _).2.1
      { Release := "The.Wire.S03E01", Name := "The.Wire", Season := 3, Episode := 1 }
      (by rfl) rfl,
    ((setMetadata_captures_errors { }).2.2.2 sampleQueue { Path := "/foo/bar" }).1
      "cannot parse bar" (by rfl)⟩

/-- C12: when the media parser succeeds on the base name of the entry with
`m` and the template renders `m` to `d`, `setMetadata` sets `Media` to `m` and
`LocalDir` to `d` and leaves `Transfer`, `Reason`, the entry and the queue as
they were. -/
theorem setMetadata_success (i : Item) (m : Media) (t : Media → Except String String)
    (d : String) (hp : i.Queue.parser i.Dir.Base = .ok m) (hl : i.Queue.localDir = some t)
    (ht : t m = .ok d) :
    i.setMetadata.Media = m ∧ i.setMetadata.LocalDir = d ∧
      i.setMetadata.Transfer = i.Transfer ∧ i.setMetadata.Reason = i.Reason ∧
      i.setMetadata.Dir = i.Dir ∧ i.setMetadata.Queue = i.Queue := by
  rw [setMetadata_rendered i m t d hp hl ht]
  exact ⟨rfl, rfl, rfl, rfl, rfl, rfl⟩

/-- C12, at the accepted item `The.Wire.S03E01` with the show parser and the
template of `TestNewItemShow`: the local directory is `/tmp/The.Wire/S03/` and
the item stays accepted with its reason. -/
theorem setMetadata_success_witness :
    wireItem.setMetadata.Media
        = { Release := "The.Wire.S03E01", Name := "The.Wire", Season := 3, Episode := 1 } ∧
      wireItem.setMetadata.LocalDir = "/tmp/The.Wire/S03/" ∧
      wireItem.setMetadata.Transfer = true ∧ wireItem.setMetadata.Reason = "Match=The" ∧
      wireItem.setMetadata.Dir = wireItem.Dir ∧ wireItem.setMetadata.Queue = wireItem.Queue :=
  setMetadata_success wireItem
    { Release := "The.Wire.S03E01", Name := "The.Wire", Season := 3, Episode := 1 }
    showTemplate "/tmp/The.Wire/S03/" (by rfl) rfl (by rfl)

/-- C20: `newItem` returns an item with `Transfer` false; its `Reason` is
`no match` when the parser and the template succeed, and the message of the
parser or template error otherwise; `setMetadata` and `Reject` never turn
`Transfer` to true, `Accept` does. -/
theorem newItem_not_transferable (q : Queue) (d : Dir) :
    (newItem q d).Transfer = false ∧
      (∀ m t dir, q.parser d.Base = .ok m → q.localDir = some t → t m = .ok dir →
        (newItem q d).Reason = "no match") ∧
      (∀ e, q.parser d.Base = .error e → (newItem q d).Reason = e) ∧
      (∀ m, q.parser d.Base = .ok m → q.localDir = none →
        (newItem q d).Reason = "template is not set") ∧
      (∀ m t e, q.parser d.Base = .ok m → q.localDir = some t → t m = .error e →
        (newItem q d).Reason = e) ∧
      (∀ i : Item, i.setMetadata.Transfer = true → i.Transfer = true) ∧
      (∀ (i : Item) (r : String), (i.Reject r).Transfer = false ∧ (i.Accept r).Transfer = true) := by
  have hset : ∀ i : Item, i.setMetadata.Transfer = true → i.Transfer = true := by
    intro i
    unfold Item.setMetadata
    cases i.Queue.parser i.Dir.Base with
    | error e => intro h; simp [Item.Reject] at h
    | ok m =>
      simp only [Item.parseLocalDir]
      cases i.Queue.localDir with
      | none => intro h; simp [Item.Reject] at h
      | some t =>
        simp only
        cases t m with
        | error e => intro h; simp [Item.Reject] at h
        | ok dir => intro h; exact h
  refine ⟨?_, ?_, ?_, ?_, ?_, hset, fun i r => ⟨rfl, rfl⟩⟩
  · cases h : (newItem q d).Transfer with
    | false => rfl
    | true =>
      have := hset { Queue := q, Dir := d, Reason := "no match" } h
      simp at this
  · intro m t dir hp hl ht
    unfold newItem
    simp only
    rw [setMetadata_rendered _ m t dir hp hl ht]
  · intro e hp
    unfold newItem
    simp only
    rw [setMetadata_parser_error _ e hp]
    rfl
  · intro m hp hl
    unfold newItem
    simp only
    rw [setMetadata_no_template _ m hp hl]
    rfl
  · intro m t e hp hl ht
    unfold newItem
    simp only
    rw [setMetadata_template_error _ m t e hp hl ht]
    rfl

/-- C20, at the queue of `TestNewItemShow` (parser and template succeed) and
at a queue whose parser fails on `bar`. -/
theorem newItem_not_transferable_witness :
    (newItem showQueue { Path := "/foo/The.Wire.S03E01" }).Reason = "no match" ∧
      (newItem sampleQueue { Path := "/foo/bar" }).Reason = "cannot parse bar" ∧
      (newItem showQueue { Path := "/foo/The.Wire.S03E01" }).Transfer = false :=
  ⟨(newItem_not_transferable showQueue { Path := "/foo/The.Wire.S03E01" }).2.1
      { Release := "The.Wire.S03E01", Name := "The.Wire", Season := 3, Episode := 1 }
      showTemplate "/tmp/The.Wire/S03/" (by rfl) rfl (by rfl),
    (newItem_not_transferable sampleQueue { Path := "/foo/bar" }).2.2.1 "cannot parse bar"
      (by rfl),
    (newItem_not_transferable showQueue { Path := "/foo/The.Wire.S03E01" }).1⟩

/-! ## Order of the priority patterns -/

/-- C14: for two items with the same priority patterns, if the first pattern
matching the one comes strictly earlier in the list than the first pattern
matching the other, the former weighs more; and an item matching some pattern
weighs more than an item matching none. -/
theorem Weight_order (a b : Item) (hq : a.Queue.priorities = b.Queue.priorities) :
    (∀ (ka kb : Nat) (pa pb : String),
        a.Queue.priorities[ka]? = some pa → lftp.Dir.Match a.Dir pa = true →
        (∀ q ∈ a.Queue.priorities.take ka, lftp.Dir.Match a.Dir q = false) →
        b.Queue.priorities[kb]? = some pb → lftp.Dir.Match b.Dir pb = true →
        (∀ q ∈ b.Queue.priorities.take kb, lftp.Dir.Match b.Dir q = false) →
        ka < kb → a.Weight > b.Weight) ∧
      (∀ p ∈ a.Queue.priorities, lftp.Dir.Match a.Dir p = true →
        (∀ q ∈ b.Queue.priorities, lftp.Dir.Match b.Dir q = false) →
        a.Weight > b.Weight ∧ b.Weight = 0) := by
  refine ⟨?_, ?_⟩
  · intro ka kb pa pb ha hma hfa hb hmb hfb hlt
    have wa := weightLoop_first a a.Queue.priorities.length a.Queue.priorities 0 ka pa ha hma hfa
    have wb := weightLoop_first b b.Queue.priorities.length b.Queue.priorities 0 kb pb hb hmb hfb
    unfold Item.Weight
    rw [wa, wb, hq]
    have : kb < b.Queue.priorities.length := by
      by_contra hge
      rw [List.getElem?_eq_none (by omega)] at hb
      simp at hb
    simp only [gt_iff_lt]
    omega
  · intro p hp hm hnone
    have wb := weightLoop_none b b.Queue.priorities.length b.Queue.priorities 0 hnone
    have hex : ∃ k p', a.Queue.priorities[k]? = some p' ∧ lftp.Dir.Match a.Dir p' = true ∧
        ∀ q ∈ a.Queue.priorities.take k, lftp.Dir.Match a.Dir q = false := by
      clear hq wb hnone
      generalize a.Queue.priorities = ps at hp
      induction ps with
      | nil => simp at hp
      | cons x xs ih =>
        by_cases hx : lftp.Dir.Match a.Dir x = true
        · exact ⟨0, x, by simp, hx, by simp⟩
        · have hp2 : p ∈ xs := by
            rcases List.mem_cons.1 hp with rfl | h
            · exact absurd hm hx
            · exact h
          obtain ⟨k, p', h1, h2, h3⟩ := ih hp2
          refine ⟨k + 1, p', by simpa using h1, h2, ?_⟩
          intro q hq
          rw [List.take_succ_cons] at hq
          rcases List.mem_cons.1 hq with rfl | h
          · simpa using hx
          · exact h3 q h
    obtain ⟨k, p', h1, h2, h3⟩ := hex
    have wa := weightLoop_first a a.Queue.priorities.length a.Queue.priorities 0 k p' h1 h2 h3
    have hk : k < a.Queue.priorities.length := by
      by_contra hge
      rw [List.getElem?_eq_none (by omega)] at h1
      simp at h1
    unfold Item.Weight
    rw [wa, wb]
    refine ⟨?_, rfl⟩
    simp only [gt_iff_lt]
    omega

/-- C14, at three items of one queue with the patterns `c`, `a`, `ab`: the
name `cx`, first matched by `c`, outweighs the name `abx`, first matched by
`a`, which outweighs the name `xyz` matching no pattern. -/
theorem Weight_order_witness :
    orderSample.1.Weight > orderSample.2.1.Weight ∧
      orderSample.2.1.Weight > orderSample.2.2.Weight ∧ orderSample.2.2.Weight = 0 :=
  ⟨(Weight_order orderSample.1 orderSample.2.1 rfl).1 0 1 "c" "a"
      (by decide) (by decide) (by decide) (by decide) (by decide) (by decide) (by decide),
    (Weight_order orderSample.2.1 orderSample.2.2 rfl).2 "a" (by decide) (by decide)
      (by decide)⟩

/-! ## Cleaned paths and the destination as a fixed point -/

theorem pieces_no_separator : ∀ (p : List Char), ∀ e ∈ filepath.pieces p, '/' ∉ e := by
  intro p
  induction p with
  | nil => intro e he; simp [filepath.pieces] at he; simp [he]
  | cons c cs ih =>
    intro e he
    unfold filepath.pieces at he
    by_cases hc : c = '/'
    · simp only [hc, if_true, List.mem_cons] at he
      rcases he with rfl | he
      · simp
      · exact ih e he
    · simp only [hc, if_false] at he
      cases hp : filepath.pieces cs with
      | nil =>
        simp only [hp, List.mem_singleton] at he
        subst he
        simpa using fun h : '/' = c => hc h.symm
      | cons w ws =>
        rw [hp] at he ih
        rcases List.mem_cons.1 he with rfl | he
        · have hw := ih w (by simp)
          simp only [List.mem_cons, not_or]
          exact ⟨fun h => hc h.symm, hw⟩
        · exact ih e (by simp [he])

theorem cleanStep_elements (rooted : Bool) (kept : List (List Char)) (e : List Char)
    (hk : ∀ x ∈ kept, x ≠ [] ∧ '/' ∉ x) (he : '/' ∉ e) :
    ∀ x ∈ filepath.cleanStep rooted kept e, x ≠ [] ∧ '/' ∉ x := by
  unfold filepath.cleanStep
  by_cases h1 : e = [] ∨ e = ['.']
  · rw [if_pos h1]
    exact hk
  · rw [if_neg h1]
    have hne : e ≠ [] := fun h => h1 (Or.inl h)
    have hcons : ∀ x ∈ e :: kept, x ≠ [] ∧ '/' ∉ x := by
      intro x hx
      rcases List.mem_cons.1 hx with rfl | hx
      · exact ⟨hne, he⟩
      · exact hk x hx
    by_cases h2 : e = ['.', '.']
    · rw [if_pos h2]
      cases kept with
      | nil =>
        cases rooted with
        | true => simp
        | false =>
          intro x hx
          simp only [Bool.false_eq_true, if_false, List.mem_singleton] at hx
          subst hx
          exact ⟨hne, he⟩
      | cons top rest =>
        simp only
        by_cases h3 : top = ['.', '.']
        · rw [if_pos h3]
          exact hcons
        · rw [if_neg h3]
          intro x hx
          exact hk x (by simp [hx])
    · rw [if_neg h2]
      exact hcons

theorem foldl_cleanStep_elements (rooted : Bool) :
    ∀ (ps kept : List (List Char)), (∀ e ∈ ps, '/' ∉ e) →
      (∀ x ∈ kept, x ≠ [] ∧ '/' ∉ x) →
      ∀ x ∈ ps.foldl (filepath.cleanStep rooted) kept, x ≠ [] ∧ '/' ∉ x := by
  intro ps
  induction ps with
  | nil => intro kept _ hk; exact hk
  | cons e ps ih =>
    intro kept hps hk
    rw [List.foldl_cons]
    exact ih _ (fun e' he' => hps e' (by simp [he']))
      (cleanStep_elements rooted kept e hk (hps e (by simp)))

theorem intercalate_last :
    ∀ kept : List (List Char), kept ≠ [] → (∀ x ∈ kept, x ≠ [] ∧ '/' ∉ x) →
      ['/'].intercalate kept ≠ [] ∧ (['/'].intercalate kept).getLast? ≠ some '/' := by
  intro kept
  induction kept with
  | nil => intro h; exact absurd rfl h
  | cons a rest ih =>
    intro _ hk
    obtain ⟨ha1, ha2⟩ := hk a (by simp)
    cases rest with
    | nil =>
      have e : ['/'].intercalate [a] = a := by simp [List.intercalate, List.intersperse]
      rw [e]
      refine ⟨ha1, ?_⟩
      intro h
      exact ha2 (List.mem_of_getLast?_eq_some h)
    | cons b r =>
      have e : ['/'].intercalate (a :: b :: r) = a ++ '/' :: ['/'].intercalate (b :: r) := by
        simp [List.intercalate, List.intersperse]
      obtain ⟨h1, h2⟩ := ih (by simp) (fun x hx => hk x (by simp [hx]))
      rw [e]
      refine ⟨by simp, ?_⟩
      rw [List.getLast?_append_of_ne_nil _ (by simp)]
      obtain ⟨c, cs, hcs⟩ := List.exists_cons_of_ne_nil h1
      rw [hcs] at h2 ⊢
      rw [List.getLast?_cons_cons]
      exact h2

theorem cleanChars_last (p : List Char) (h : (filepath.cleanChars p).getLast? = some '/') :
    filepath.cleanChars p = ['/'] := by
  unfold filepath.cleanChars at h ⊢
  simp only at h ⊢
  generalize hkept :
    ((filepath.pieces p).foldl (filepath.cleanStep (decide (p.head? = some '/'))) []).reverse
      = kept at h ⊢
  have hel : ∀ x ∈ kept, x ≠ [] ∧ '/' ∉ x := by
    intro x hx
    rw [← hkept, List.mem_reverse] at hx
    exact foldl_cleanStep_elements _ _ [] (pieces_no_separator p) (by simp) x hx
  by_cases hk : kept = []
  · subst hk
    by_cases hr : p.head? = some '/'
    · simp [hr, List.intercalate]
    · simp [hr, List.intercalate] at h
  · obtain ⟨h1, h2⟩ := intercalate_last kept hk hel
    by_cases hr : p.head? = some '/'
    · rw [if_pos hr] at h
      obtain ⟨c, cs, hcs⟩ := List.exists_cons_of_ne_nil h1
      rw [hcs] at h h2
      rw [List.getLast?_cons_cons] at h
      exact absurd h h2
    · rw [if_neg hr, if_neg h1] at h
      exact absurd h h2

/-- C19: when `DstDir` is not the root directory it does not end with the
path separator, and the item with the same entry and `LocalDir` replaced by
that destination resolves to the same destination. -/
theorem DstDir_fixed_point (i : Item) (h : i.DstDir ≠ "/") :
    i.DstDir.data.getLast? ≠ some '/' ∧
      ({ i with LocalDir := i.DstDir } : Item).DstDir = i.DstDir := by
  have hlast : i.DstDir.data.getLast? ≠ some '/' := by
    intro hl
    by_cases hs : strings.HasSuffix i.LocalDir (String.singleton PathSeparator) = true
    · have hne : i.LocalDir ≠ "" := by
        intro he
        rw [he] at hs
        exact absurd hs (by decide)
      have hd : i.DstDir
          = filepath.Clean (strings.Join [i.LocalDir, i.Dir.Base] "/") := by
        unfold Item.DstDir
        rw [if_pos hs]
        unfold filepath.Join
        simp [hne]
      rw [hd] at hl h
      have := cleanChars_last _ hl
      apply h
      unfold filepath.Clean
      rw [this]
    · have hd : i.DstDir = i.LocalDir := by
        unfold Item.DstDir
        rw [if_neg hs]
      rw [hd] at hl
      exact hs ((hasSuffix_singleton i.LocalDir.data '/').2 hl)
  refine ⟨hlast, ?_⟩
  have hs : ¬ strings.HasSuffix i.DstDir (String.singleton PathSeparator) = true :=
    fun hs => hlast ((hasSuffix_singleton i.DstDir.data '/').1 hs)
  show (if strings.HasSuffix i.DstDir (String.singleton PathSeparator) = true then _ else i.DstDir)
    = i.DstDir
  rw [if_neg hs]

/-- C19, at the local directory `/tmp//` with the entry `/foo/bar`: the
destination is `/tmp/bar`, and resolving again from `/tmp/bar` gives
`/tmp/bar`. -/
theorem DstDir_fixed_point_witness :
    ({ LocalDir := "/tmp//", Dir := { Path := "/foo/bar" } } : Item).DstDir = "/tmp/bar" ∧
      ("/tmp/bar" : String).data.getLast? ≠ some '/' ∧
      ({ LocalDir := "/tmp/bar", Dir := { Path := "/foo/bar" } } : Item).DstDir = "/tmp/bar" :=
  ⟨by decide,
    DstDir_fixed_point { LocalDir := "/tmp//", Dir := { Path := "/foo/bar" } } (by decide)⟩

/-! ## Deduplication and the script -/

theorem keptMember_none : ∀ g : List (Nat × Item), keptMember g = none → g = [] := by
  intro g
  cases g with
  | nil => intro _; rfl
  | cons x rest =>
    intro h
    unfold keptMember at h
    cases hr : keptMember rest with
    | none => simp [hr] at h
    | some y =>
      simp only [hr] at h
      split at h <;> simp at h

theorem keptMember_heaviest_first :
    ∀ (g : List (Nat × Item)) (k : Nat × Item), keptMember g = some k →
      (∀ x ∈ g, x.2.Weight ≤ k.2.Weight) ∧
        ∃ pre post, g = pre ++ k :: post ∧ ∀ x ∈ pre, x.2.Weight < k.2.Weight := by
  intro g
  induction g with
  | nil => intro k h; simp [keptMember] at h
  | cons x rest ih =>
    intro k h
    unfold keptMember at h
    cases hr : keptMember rest with
    | none =>
      have hnil := keptMember_none rest hr
      simp only [hr, Option.some.injEq] at h
      subst h hnil
      exact ⟨by simp, [], [], rfl, by simp⟩
    | some y =>
      obtain ⟨hmax, pre, post, hg, hpre⟩ := ih y hr
      simp only [hr] at h
      by_cases hw : y.2.Weight > x.2.Weight
      · rw [if_pos hw] at h
        simp only [Option.some.injEq] at h
        subst h
        refine ⟨?_, x :: pre, post, by rw [hg]; rfl, ?_⟩
        · intro z hz
          rcases List.mem_cons.1 hz with rfl | hz
          · exact le_of_lt hw
          · exact hmax z hz
        · intro z hz
          rcases List.mem_cons.1 hz with rfl | hz
          · exact hw
          · exact hpre z hz
      · rw [if_neg hw] at h
        simp only [Option.some.injEq] at h
        subst h
        have hxy : y.2.Weight ≤ x.2.Weight := not_lt.1 hw
        refine ⟨?_, [], rest, rfl, by simp⟩
        intro z hz
        rcases List.mem_cons.1 hz with rfl | hz
        · exact le_refl _
        · exact le_trans (hmax z hz) hxy

theorem mem_groupOf (v : Variant) (items : List Item) (key : String × List Int)
    (m : Nat) (j : Item) :
    (m, j) ∈ groupOf v items key ↔
      items[m]? = some j ∧ j.Transfer = true ∧ mediaIdentity v j.Media = some key := by
  unfold groupOf
  rw [List.mem_filter, List.mk_mem_enum_iff_getElem?]
  simp

theorem groupOf_ordered (v : Variant) (items : List Item) (key : String × List Int) :
    (groupOf v items key).Pairwise (fun a b => a.1 < b.1) := by
  unfold groupOf
  apply List.Pairwise.filter
  have h : (items.enum.map Prod.fst).Pairwise (fun a b => a < b) := by
    rw [List.enum_map_fst]
    exact List.pairwise_lt_range _
  exact List.pairwise_map.1 h

theorem keptMember_mem (g : List (Nat × Item)) (k : Nat × Item) (h : keptMember g = some k) :
    k ∈ g := by
  obtain ⟨_, pre, post, hg, _⟩ := keptMember_heaviest_first g k h
  rw [hg]
  simp

theorem kept_earlier_lighter (g : List (Nat × Item)) (k : Nat × Item)
    (hord : g.Pairwise (fun a b => a.1 < b.1)) (h : keptMember g = some k) :
    ∀ x ∈ g, x.1 < k.1 → x.2.Weight < k.2.Weight := by
  obtain ⟨_, pre, post, hg, hpre⟩ := keptMember_heaviest_first g k h
  intro x hx hlt
  rw [hg] at hx hord
  rcases List.mem_append.1 hx with hx | hx
  · exact hpre x hx
  · exfalso
    rcases List.mem_cons.1 hx with rfl | hx
    · exact lt_irrefl _ hlt
    · have h2 := (List.pairwise_append.1 hord).2.1
      have h3 := List.rel_of_pairwise_cons h2 hx
      exact lt_asymm hlt h3

theorem dedupItem_retained (v : Variant) (items : List Item) (n : Nat) (i : Item)
    (key : String × List Int) (hi : items[n]? = some i) (ht : i.Transfer = true)
    (hk : mediaIdentity v i.Media = some key) :
    ∃ kept, keptMember (groupOf v items key) = some kept ∧
      ((dedupItem v items (n, i)).Transfer = true ↔ kept.1 = n) ∧
      (kept.1 = n → dedupItem v items (n, i) = i ∧ kept = (n, i)) := by
  have hmem : (n, i) ∈ groupOf v items key := (mem_groupOf v items key n i).2 ⟨hi, ht, hk⟩
  cases hkm : keptMember (groupOf v items key) with
  | none =>
    rw [keptMember_none _ hkm] at hmem
    simp at hmem
  | some kept =>
    have hd : dedupItem v items (n, i)
        = if kept.1 = n then i
          else { i with
                 Transfer := false, Merged := true,
                 Reason := "DuplicateOf=" ++ kept.2.Dir.Path,
                 LocalDir := kept.2.LocalDir, Dir := kept.2.Dir } := by
      unfold dedupItem
      simp only [ht, if_true, hk, hkm]
    refine ⟨kept, rfl, ?_, ?_⟩
    · rw [hd]
      by_cases h : kept.1 = n
      · simp [h, ht]
      · simp [h]
    · intro h
      rw [hd, if_pos h]
      refine ⟨rfl, ?_⟩
      have hkmem := keptMember_mem _ _ hkm
      obtain ⟨k1, k2⟩ := kept
      simp only at h
      subst h
      have := (mem_groupOf v items key k1 k2).1 hkmem
      rw [hi] at this
      simp only [Option.some.injEq] at this
      rw [this.1]

theorem dedupItem_transfer (v : Variant) (items : List Item) (x : Nat × Item)
    (h : (dedupItem v items x).Transfer = true) :
    x.2.Transfer = true ∧ dedupItem v items x = x.2 := by
  unfold dedupItem at h ⊢
  by_cases ht : x.2.Transfer = true
  · refine ⟨ht, ?_⟩
    simp only [ht, if_true] at h ⊢
    cases hk : mediaIdentity v x.2.Media with
    | none => rfl
    | some key =>
      simp only [hk] at h ⊢
      cases hkm : keptMember (groupOf v items key) with
      | none => rfl
      | some kept =>
        simp only [hkm] at h ⊢
        by_cases hn : kept.1 = x.1
        · rw [if_pos hn]
        · rw [if_neg hn] at h
          simp at h
  · simp only [ht, Bool.false_eq_true, if_false] at h

theorem deduplicate_getElem? (v : Variant) (items : List Item) (n : Nat) :
    (deduplicate v true items)[n]? = items[n]?.map (fun i => dedupItem v items (n, i)) := by
  unfold deduplicate
  rw [if_pos rfl, List.getElem?_map, List.getElem?_enum]
  cases items[n]? <;> rfl

/-- C15: deduplication leaves the queue length unchanged, and for the item `i`
at position `n` before and `o` at position `n` after: `o` is transferable only
if `i` was, and then `o` is `i` unchanged; when `i` was transferable with a
media identity, `o` is transferable exactly when `i` is the heaviest member of
its group and strictly heavier than every earlier member; two transferable
items of one identity that both stay transferable are the same item; a
transferable item without a media identity stays as it is. -/
theorem deduplicate_keeps_heaviest (v : Variant) (items : List Item) (n : Nat) (i o : Item)
    (hi : items[n]? = some i) (ho : (deduplicate v true items)[n]? = some o) :
    (deduplicate v true items).length = items.length ∧
      (o.Transfer = true → i.Transfer = true ∧ o = i) ∧
      (∀ key, i.Transfer = true → mediaIdentity v i.Media = some key →
        (o.Transfer = true ↔
          ∀ m j, items[m]? = some j → j.Transfer = true →
            mediaIdentity v j.Media = some key →
            j.Weight ≤ i.Weight ∧ (m < n → j.Weight < i.Weight))) ∧
      (∀ m j p key, items[m]? = some j → (deduplicate v true items)[m]? = some p →
        i.Transfer = true → j.Transfer = true →
        mediaIdentity v i.Media = some key → mediaIdentity v j.Media = some key →
        o.Transfer = true → p.Transfer = true → m = n) ∧
      (i.Transfer = true → mediaIdentity v i.Media = none → o = i) := by
  have hoe : o = dedupItem v items (n, i) := by
    rw [deduplicate_getElem?, hi] at ho
    simpa using ho.symm
  have hchar : ∀ (n : Nat) (i : Item) (key : String × List Int), items[n]? = some i →
      i.Transfer = true → mediaIdentity v i.Media = some key →
      ((dedupItem v items (n, i)).Transfer = true ↔
        ∀ m j, items[m]? = some j → j.Transfer = true →
          mediaIdentity v j.Media = some key →
          j.Weight ≤ i.Weight ∧ (m < n → j.Weight < i.Weight)) := by
    intro n i key hi ht hk
    obtain ⟨kept, hkm, hiff, hsame⟩ := dedupItem_retained v items n i key hi ht hk
    obtain ⟨hmax, _⟩ := keptMember_heaviest_first _ kept hkm
    have hearly := kept_earlier_lighter _ kept (groupOf_ordered v items key) hkm
    have hkmem := keptMember_mem _ _ hkm
    rw [hiff]
    constructor
    · intro hn m j hj hjt hjk
      have hke := (hsame hn).2
      have hjm : (m, j) ∈ groupOf v items key := (mem_groupOf v items key m j).2 ⟨hj, hjt, hjk⟩
      refine ⟨?_, ?_⟩
      · have := hmax (m, j) hjm
        rw [hke] at this
        exact this
      · intro hlt
        have := hearly (m, j) hjm (by rw [hke]; exact hlt)
        rw [hke] at this
        exact this
    · intro hall
      obtain ⟨k1, k2⟩ := kept
      have hk2 := (mem_groupOf v items key k1 k2).1 hkmem
      have hself : (n, i) ∈ groupOf v items key := (mem_groupOf v items key n i).2 ⟨hi, ht, hk⟩
      have h1 := hall k1 k2 hk2.1 hk2.2.1 hk2.2.2
      show k1 = n
      rcases lt_trichotomy k1 n with hlt | heq | hgt
      · have a := h1.2 hlt
        have b := hmax (n, i) hself
        simp only at b
        exact absurd a (not_lt.2 b)
      · exact heq
      · have a := hearly (n, i) hself hgt
        simp only at a
        exact absurd a (not_lt.2 h1.1)
  refine ⟨?_, ?_, ?_, ?_, ?_⟩
  · simp [deduplicate]
  · intro h
    rw [hoe] at h ⊢
    exact dedupItem_transfer v items (n, i) h
  · intro key ht hk
    rw [hoe]
    exact hchar n i key hi ht hk
  · intro m j p key hj hp ht hjt hk hjk hot hpt
    have hpe : p = dedupItem v items (m, j) := by
      rw [deduplicate_getElem?, hj] at hp
      simpa using hp.symm
    rw [hoe] at hot
    rw [hpe] at hpt
    have hn := (hchar n i key hi ht hk).1 hot
    have hm := (hchar m j key hj hjt hjk).1 hpt
    rcases lt_trichotomy m n with hlt | heq | hgt
    · have a := (hn m j hj hjt hjk).2 hlt
      have b := (hm n i hi ht hk).1
      exact absurd a (not_lt.2 b)
    · exact heq
    · have a := (hm n i hi ht hk).2 hgt
      have b := (hn m j hj hjt hjk).1
      exact absurd a (not_lt.2 b)
  · intro ht hk
    rw [hoe]
    unfold dedupItem
    simp only [ht, if_true, hk]

/-- C15, at the seven items of `TestDeduplicate`: the weights are 0, 2, 1, 0,
2, 0, 2, the second item `S01E01.PROPER.foo` stays transferable, and the items
that remain transferable are `S01E01.PROPER.foo`, `S01E02.PROPER.REPACK` and
`S01E03.bar`. -/
theorem deduplicate_keeps_heaviest_witness :
    dedupSample.map (fun i => i.Weight) = [0, 2, 1, 0, 2, 0, 2] ∧
      dedupSample.map (fun i => i.Transfer) = [true, true, true, true, true, true, false] ∧
      (Transferable (deduplicate .show true dedupSample)).map (fun i => i.Dir.Path)
        = ["/tmp/The.Wire.S01E01.PROPER.foo", "/tmp/The.Wire.S01E02.PROPER.REPACK",
            "/tmp/The.Wire.S01E03.bar"] ∧
      (∀ m j, dedupSample[m]? = some j → j.Transfer = true →
        mediaIdentity .show j.Media = some ("The.Wire", [1, 1]) →
        j.Weight ≤ (2 : Int) ∧ (m < 1 → j.Weight < (2 : Int))) :=
  ⟨by decide, by decide, by decide,
    ((deduplicate_keeps_heaviest .show dedupSample 1
        ((newItem dedupQueue (tmpDir "The.Wire.S01E01.PROPER.foo")).Accept "")
        ((newItem dedupQueue (tmpDir "The.Wire.S01E01.PROPER.foo")).Accept "")
        (by rfl) (by rfl)).2.2.1 ("The.Wire", [1, 1]) (by rfl) (by rfl)).1 (by rfl)⟩

theorem unlines_append : ∀ a b : List String, unlines (a ++ b) = unlines a ++ unlines b := by
  intro a
  induction a with
  | nil => intro b; simp [unlines]
  | cons l ls ih =>
    intro b
    show unlines (l :: (ls ++ b)) = unlines (l :: ls) ++ unlines b
    rw [unlines, unlines, ih]
    simp only [String.append_assoc]

theorem foldl_append_string :
    ∀ (l : List String) (acc : String),
      List.foldl (fun r s => r ++ s) acc l = acc ++ List.foldl (fun r s => r ++ s) "" l := by
  intro l
  induction l with
  | nil => intro acc; simp
  | cons a l ih =>
    intro acc
    rw [List.foldl_cons, List.foldl_cons, ih (acc ++ a), ih ("" ++ a)]
    simp only [String.append_assoc, String.empty_append]

theorem join_cons (a : String) (l : List String) :
    String.join (a :: l) = a ++ String.join l := by
  unfold String.join
  rw [List.foldl_cons, foldl_append_string l ("" ++ a)]
  simp only [String.empty_append]

theorem unlines_map (f : Item → String) :
    ∀ l : List Item, unlines (l.map f) = String.join (l.map (fun i => f i ++ "\n")) := by
  intro l
  induction l with
  | nil => rfl
  | cons i l ih =>
    rw [List.map_cons, List.map_cons, unlines, ih, join_cons]

/-- C16: the script is the line `open <siteName>`, one line
`queue <getCmd> <remotePath> <destination>` for each item with `Transfer`
true, in the stored order and with the item's `DstDir` as destination, and the
lines `queue start`, `wait`, `exit`, each line ended by a newline; items with
`Transfer` false add nothing. The two accepted items of `TestScript` give the
script of the test. -/
theorem Script_lines (siteName getCmd : String) (items : List Item) :
    Script siteName getCmd items
        = "open " ++ siteName ++ "\n" ++
          String.join ((items.filter (fun i => i.Transfer)).map
            (fun i => "queue " ++ getCmd ++ " " ++ i.Dir.Path ++ " " ++ i.DstDir ++ "\n")) ++
          "queue start\nwait\nexit\n" ∧
      Script siteName getCmd items = Script siteName getCmd (items.filter (fun i => i.Transfer)) ∧
      List.Sublist (Transferable items) items ∧
      Script "siteA" "mirror" scriptSample
        = "open siteA\nqueue mirror /foo /tmp\nqueue mirror /bar /tmp\nqueue start\nwait\nexit\n" := by
  refine ⟨?_, ?_, List.filter_sublist _, by decide⟩
  · unfold Script Transferable
    rw [unlines_append, unlines_append, unlines_map]
    simp only [unlines, String.append_assoc]
    rfl
  · unfold Script Transferable
    rw [List.filter_filter]
    simp

/-! ## The driver -/

theorem mainSites_append {σ S D C : Type} (env : Env σ S D C) (dryrun : Bool) :
    ∀ (pre post : List S) (w w1 : σ), mainSites env dryrun pre w = (.ok (), w1) →
      mainSites env dryrun (pre ++ post) w = mainSites env dryrun post w1 := by
  intro pre
  induction pre with
  | nil =>
    intro post w w1 h
    simp only [mainSites, Prod.mk.injEq, true_and] at h
    rw [List.nil_append, h]
  | cons s pre ih =>
    intro post w w1 h
    rw [List.cons_append]
    simp only [mainSites] at h ⊢
    rcases hr : CLI.Run env dryrun s w with ⟨r, w2⟩
    rw [hr] at h
    cases r with
    | error err => simp at h
    | ok u => exact ih post w2 w1 h

/-- C17: `Run` returns the error of `GetDirs`, with the world as `GetDirs`
left it, so that no command is built, printed or executed; it returns the
error of `Join` and, when not a dry run, the error of executing the joined
command. The sites are processed in order: after the sites before it have
succeeded, the first site whose `Run` returns an error ends the loop with that
error, whatever sites follow. -/
theorem Run_fail_fast {σ S D C : Type} (env : Env σ S D C) (dryrun : Bool) (s : S) (w : σ) :
    (∀ e w1, env.GetDirs s w = (.error e, w1) → CLI.Run env dryrun s w = (.error e, w1)) ∧
      (∀ dirs w1 e, env.GetDirs s w = (.ok dirs, w1) →
        env.Join (CLI.collect env s (env.FilterDirs s dirs) [] w1).1 = .error e →
        CLI.Run env dryrun s w
          = (.error e, (CLI.collect env s (env.FilterDirs s dirs) [] w1).2)) ∧
      (∀ dirs w1 c e w2, env.GetDirs s w = (.ok dirs, w1) →
        env.Join (CLI.collect env s (env.FilterDirs s dirs) [] w1).1 = .ok c →
        env.RunCmd c (CLI.collect env s (env.FilterDirs s dirs) [] w1).2 = (.error e, w2) →
        CLI.Run env false s w = (.error e, w2)) ∧
      (∀ (pre post : List S) (w0 w1 : σ) (e : String),
        mainSites env dryrun pre w0 = (.ok (), w) →
        CLI.Run env dryrun s w = (.error e, w1) →
        mainSites env dryrun (pre ++ s :: post) w0 = (.error e, env.Fatal e w1)) ∧
      (∀ (pre post : List S) (w0 : σ), mainSites env dryrun pre w0 = (.ok (), w) →
        mainSites env dryrun (pre ++ post) w0 = mainSites env dryrun post w) := by
  refine ⟨?_, ?_, ?_, ?_, ?_⟩
  · intro e w1 h
    unfold CLI.Run
    rw [h]
  · intro dirs w1 e h hj
    unfold CLI.Run
    rw [h]
    simp only
    rcases hc : CLI.collect env s (env.FilterDirs s dirs) [] w1 with ⟨cmds, w2⟩
    rw [hc] at hj
    simp only at hj ⊢
    rw [hj]
  · intro dirs w1 c e w2 h hj hrun
    unfold CLI.Run
    rw [h]
    simp only
    rcases hc : CLI.collect env s (env.FilterDirs s dirs) [] w1 with ⟨cmds, w3⟩
    rw [hc] at hj hrun
    simp only at hj hrun ⊢
    rw [hj]
    simp only [Bool.false_eq_true, if_false]
    rw [hrun]
  · intro pre post w0 w1 e hpre hrun
    rw [mainSites_append env dryrun pre (s :: post) w0 w hpre]
    unfold mainSites
    rw [hrun]
  · intro pre post w0 hpre
    exact mainSites_append env dryrun pre post w0 w hpre

/-- C17, at three sites of which the second cannot be listed: the first site
is run, the second fails in `GetDirs` and nothing of the third site happens;
and a joined command that fails to execute makes `Run` return its error. -/
theorem Run_fail_fast_witness :
    mainSites traceEnv false ["a", "b", "c"] []
        = (.error "listing failed",
            ["list a", "skip x: no command", "run a1+a2", "list b", "fatal listing failed"]) ∧
      CLI.Run traceEnv false "b" ["earlier"] = (.error "listing failed", ["earlier", "list b"]) ∧
      CLI.Run { traceEnv with Join := fun _ => .ok "fail" } false "a" []
        = (.error "exit status 1", ["list a", "skip x: no command", "run fail"]) ∧
      CLI.Run { traceEnv with Join := fun _ => .error "cannot join" } false "a" []
        = (.error "cannot join", ["list a", "skip x: no command"]) :=
  ⟨(Run_fail_fast traceEnv false "b" ["list a", "skip x: no command", "run a1+a2"]).2.2.2.1
      ["a"] ["c"] [] ["list a", "skip x: no command", "run a1+a2", "list b"] "listing failed"
      (by rfl) (by rfl),
    (Run_fail_fast traceEnv false "b" ["earlier"]).1 "listing failed" ["earlier", "list b"]
      (by rfl),
    (Run_fail_fast { traceEnv with Join := fun _ => .ok "fail" } false "a" []).2.2.1
      ["a1", "x", "a2"] ["list a"] "fail" "exit status 1"
      ["list a", "skip x: no command", "run fail"] (by rfl) (by rfl) (by rfl),
    (Run_fail_fast { traceEnv with Join := fun _ => .error "cannot join" } false "a" []).2.1
      ["a1", "x", "a2"] ["list a"] "cannot join" (by rfl) (by rfl)⟩

theorem collect_pair {σ S D C : Type} (env : Env σ S D C) (s : S) :
    ∀ (ds : List D) (cmds : List C) (w : σ),
      CLI.collect env s ds cmds w
        = (cmds ++ ds.filterMap (fun d => (env.QueueCmd s d).toOption),
            ds.foldl (fun w d =>
              match env.QueueCmd s d with
              | .error err => env.Printf d err w
              | .ok _ => w) w) := by
  intro ds
  induction ds with
  | nil => intro cmds w; simp [CLI.collect]
  | cons d ds ih =>
    intro cmds w
    unfold CLI.collect
    cases h : env.QueueCmd s d with
    | error err => simp [ih, List.filterMap_cons, h, Except.toOption]
    | ok cmd => simp [ih, List.filterMap_cons, h, Except.toOption]

/-- C18: when the listing of the site succeeds, `Run` hands to `Join` exactly
the results of `QueueCmd` on the filtered directories for which it succeeds,
in the order of the directories: the result of `Run` is the error of `Join` on
that list, or else the outcome of printing or running the command that `Join`
returns for it. A failing `QueueCmd` only adds its log line to the world and
skips its directory; it does not by itself make `Run` return an error. -/
theorem Run_skips_failed_directories {σ S D C : Type} (env : Env σ S D C) (dryrun : Bool)
    (s : S) (w0 w : σ) (dirs : List D) (hget : env.GetDirs s w0 = (.ok dirs, w)) :
    CLI.collect env s (env.FilterDirs s dirs) [] w
        = ((env.FilterDirs s dirs).filterMap (fun d => (env.QueueCmd s d).toOption),
            (env.FilterDirs s dirs).foldl (fun w d =>
              match env.QueueCmd s d with
              | .error err => env.Printf d err w
              | .ok _ => w) w) ∧
      CLI.Run env dryrun s w0
        = (match env.Join
              ((env.FilterDirs s dirs).filterMap (fun d => (env.QueueCmd s d).toOption)) with
          | .error err =>
            (.error err,
              (env.FilterDirs s dirs).foldl (fun w d =>
                match env.QueueCmd s d with
                | .error err => env.Printf d err w
                | .ok _ => w) w)
          | .ok queueCmd =>
            if dryrun then
              (.ok (),
                env.Println queueCmd
                  ((env.FilterDirs s dirs).foldl (fun w d =>
                    match env.QueueCmd s d with
                    | .error err => env.Printf d err w
                    | .ok _ => w) w))
            else
              match env.RunCmd queueCmd
                  ((env.FilterDirs s dirs).foldl (fun w d =>
                    match env.QueueCmd s d with
                    | .error err => env.Printf d err w
                    | .ok _ => w) w) with
              | (.error err, w2) => (.error err, w2)
              | (.ok _, w2) => (.ok (), w2)) ∧
      (∀ c : C,
        env.Join ((env.FilterDirs s dirs).filterMap (fun d => (env.QueueCmd s d).toOption))
          = .ok c →
        (dryrun = true ∨
          (env.RunCmd c
            ((env.FilterDirs s dirs).foldl (fun w d =>
              match env.QueueCmd s d with
              | .error err => env.Printf d err w
              | .ok _ => w) w)).1 = .ok ()) →
        (CLI.Run env dryrun s w0).1 = .ok ()) := by
  have hc := collect_pair env s (env.FilterDirs s dirs) [] w
  rw [List.nil_append] at hc
  have hrun : CLI.Run env dryrun s w0
      = (match env.Join
            ((env.FilterDirs s dirs).filterMap (fun d => (env.QueueCmd s d).toOption)) with
        | .error err =>
          (.error err,
            (env.FilterDirs s dirs).foldl (fun w d =>
              match env.QueueCmd s d with
              | .error err => env.Printf d err w
              | .ok _ => w) w)
        | .ok queueCmd =>
          if dryrun then
            (.ok (),
              env.Println queueCmd
                ((env.FilterDirs s dirs).foldl (fun w d =>
                  match env.QueueCmd s d with
                  | .error err => env.Printf d err w
                  | .ok _ => w) w))
          else
            match env.RunCmd queueCmd
                ((env.FilterDirs s dirs).foldl (fun w d =>
                  match env.QueueCmd s d with
                  | .error err => env.Printf d err w
                  | .ok _ => w) w) with
            | (.error err, w2) => (.error err, w2)
            | (.ok _, w2) => (.ok (), w2)) := by
    unfold CLI.Run
    rw [hget]
    simp only
    rw [hc]
  refine ⟨hc, hrun, ?_⟩
  intro c hjoin hok
  rw [hrun, hjoin]
  simp only
  cases dryrun with
  | true => rfl
  | false =>
    simp only [Bool.false_eq_true, if_false]
    rcases hok with h | h
    · exact absurd h (by decide)
    · rcases hr : env.RunCmd c
          ((env.FilterDirs s dirs).foldl (fun w d =>
            match env.QueueCmd s d with
            | .error err => env.Printf d err w
            | .ok _ => w) w) with ⟨r, w3⟩
      rw [hr] at h
      simp only at h
      rw [h]

/-- C18, at site `a` whose second directory gives no command: the commands
of the first and third directory, and only they, reach `Join`; the joined
command `a1+a2` is run after the log line of the skipped directory, and `Run`
returns no error. -/
theorem Run_skips_failed_directories_witness :
    CLI.collect traceEnv "a" ["a1", "x", "a2"] [] ["list a"]
        = (["a1", "a2"], ["list a", "skip x: no command"]) ∧
      CLI.Run traceEnv false "a" []
        = (.ok (), ["list a", "skip x: no command", "run a1+a2"]) ∧
      (CLI.Run traceEnv false "a" []).1 = .ok () :=
  ⟨(Run_skips_failed_directories traceEnv false "a" [] ["list a"] ["a1", "x", "a2"]
      (by rfl)).1,
    (Run_skips_failed_directories traceEnv false "a" [] ["list a"] ["a1", "x", "a2"]
      (by rfl)).2.1,
    (Run_skips_failed_directories traceEnv false "a" [] ["list a"] ["a1", "x", "a2"]
      (by rfl)).2.2 "a1+a2" (by rfl) (Or.inr (by rfl))⟩

end Lftpq
